import Mathlib

/-!
Shallow embedding of `src/editor/plugins/withAutoMarkdown.ts` (notabase).

The source is a Slate plugin with three parts:
  * two static shortcut tables, `BLOCK_SHORTCUTS` and `INLINE_SHORTCUTS`,
    whose JavaScript regular expressions are embedded here as executable
    matchers with JS leftmost-match / greedy-with-backtracking semantics;
  * an `insertText` interceptor that runs the block resolver on a space
    keystroke and otherwise the inline resolver, performing the structural
    edits of the matching rule (delete delimiters, set block type, wrap in
    list, apply mark, wrap in link);
  * a `deleteBackward` interceptor implementing outdent-before-merge, and a
    `deleteText` range-deletion helper.

Documents are modelled at the granularity the plugin observes: the current
block (optionally wrapped in list containers), its inline children (text
runs with boolean marks, and link nodes), and a collapsed caret addressed
by leaf index and character offset.  Strings are lists of characters.
Editor state reachable only through facilities the plugin never exercises
(caret movement, pasting, expanded-selection insertion) is out of scope of
the insert-text model; the delete-backward model keeps the selection
explicit, including its absent and non-collapsed forms, because the source
branches on them.
-/

/-- Delimiter characters of the shortcut tables (glossary of the spec). -/
def delimChars : List Char := ['*', '_', '`', '[', ']', '(', ')']

/-- A character that is not markdown delimiter punctuation. -/
def nonDelim (c : Char) : Bool := !(delimChars.contains c)

/-- Whitespace as matched by the regex class `\s` in the source patterns
(common forms; the claims only exercise the plain space). -/
def jsWs (c : Char) : Bool :=
  c = ' ' || c = '\t' || c = '\n' || c = '\r' || c = '\x0b' || c = '\x0c'

/-- Characters matched by `.` in the source regexes (anything except a
line terminator). -/
def nonTerm (c : Char) : Bool :=
  !(c = '\n' || c = '\r' || c = '\u2028' || c = '\u2029')

/-- Boolean marks carried by a Slate text leaf. -/
structure Marks where
  bold : Bool
  italic : Bool
  code : Bool
deriving DecidableEq, Repr

/-- A leaf with no marks set. -/
def noMarks : Marks := ⟨false, false, false⟩

/-- Inline node of the current block: a text run, or a link element
carrying a url.  A link produced by the plugin wraps exactly one text run
(`Transforms.wrapNodes` with `split: true` over a range inside one leaf),
so its child is modelled as a single run. -/
inductive Inl where
  | run (marks : Marks) (content : List Char)
  | link (url : List Char) (content : List Char) (marks : Marks)
deriving DecidableEq, Repr

/-- Text content of an inline node (for `SlateEditor.string` ranges). -/
def inlText : Inl → List Char
  | .run _ s => s
  | .link _ s _ => s

/-- The block containing the caret: its Slate `type` string and its
ordered inline children. -/
structure Blk where
  type : String
  children : List Inl
deriving DecidableEq, Repr

/-- Editor state for the `insertText` interceptor: the current block,
the list containers wrapped around it (innermost first, produced by
`Transforms.wrapNodes`), and a collapsed caret given by the index of the
leaf holding it and the character offset inside that leaf. -/
structure EState where
  wrappers : List String
  blk : Blk
  leafIdx : Nat
  caret : Nat
deriving DecidableEq, Repr

/-- Content of the caret's leaf (empty if the index dangles). -/
def caretLeafContent (st : EState) : List Char :=
  match st.blk.children[st.leafIdx]? with
  | some l => inlText l
  | none => []

/-- Marks of the caret's leaf. -/
def caretLeafMarks (st : EState) : Marks :=
  match st.blk.children[st.leafIdx]? with
  | some (.run m _) => m
  | some (.link _ _ m) => m
  | none => noMarks

/-- The string of `beforeRange` in the source: from the start of the
enclosing block to the caret (`SlateEditor.string` concatenates the text
of every node in the range, link contents included). -/
def blkTextBefore (st : EState) : List Char :=
  ((st.blk.children.take st.leafIdx).map inlText).flatten
    ++ (caretLeafContent st).take st.caret

/-- The string of `elementRange` plus the in-flight character in the
source: from the start of the caret's text leaf to the caret, with the
character about to be inserted appended. -/
def elementTextOf (st : EState) (c : Char) : List Char :=
  (caretLeafContent st).take st.caret ++ [c]

/-! ## Block shortcut table -/

/-- Anchored patterns of `BLOCK_SHORTCUTS`. -/
inductive BlockPat where
  | bullets              -- `^(\*|-|\+)$`
  | numbered             -- `^([0-9]+\.)$`
  | exactly (t : List Char) -- `^t$` for a literal t
deriving DecidableEq, Repr

/-- Whether an anchored block pattern matches the entire string. -/
def blockPatMatch : BlockPat → List Char → Bool
  | .bullets, s => s = ['*'] || s = ['-'] || s = ['+']
  | .numbered, s =>
      s.dropLast ≠ [] && s.dropLast.all (fun c => c.isDigit)
        && s.getLast? = some '.'
  | .exactly t, s => s = t

/-- One entry of `BLOCK_SHORTCUTS`. -/
structure BlockRule where
  pattern : BlockPat
  type : String
  listType : Option String
deriving DecidableEq, Repr

/-- The static ordered block shortcut table of the source. -/
def BLOCK_SHORTCUTS : List BlockRule :=
  [ ⟨.bullets, "list-item", some "bulleted-list"⟩,
    ⟨.numbered, "list-item", some "numbered-list"⟩,
    ⟨.exactly ['>'], "block-quote", none⟩,
    ⟨.exactly ['#'], "heading-one", none⟩,
    ⟨.exactly ['#', '#'], "heading-two", none⟩,
    ⟨.exactly ['#', '#', '#'], "heading-three", none⟩ ]

/-- First block rule whose pattern matches the whole line prefix
(the `for ... of BLOCK_SHORTCUTS` loop). -/
def blockFirstMatch (s : List Char) : Option BlockRule :=
  BLOCK_SHORTCUTS.find? (fun r => blockPatMatch r.pattern s)

/-! ## Inline shortcut table -/

/-- Shapes of the `INLINE_SHORTCUTS` regexes: a delimiter pair
`(?:^|\s)(d^k)([^d]+)(d^k)`, the code pattern with `.+` inner, and the
link pattern. -/
inductive InlinePat where
  | emph (d : Char) (k : Nat)  -- (?:^|\s)(d{k})([^d]+)(d{k})
  | codeP                      -- (?:^|\s)(backtick)(.+)(backtick)
  | linkP                      -- (?:^|\s)(lbracket)(.+)(rbracket lparen)(.+)(rparen)
deriving DecidableEq, Repr

/-- Kind of formatting an inline rule produces. -/
inductive InlineKind where
  | bold
  | italic
  | code
  | link
deriving DecidableEq, Repr

/-- One entry of `INLINE_SHORTCUTS`. -/
structure InlineRule where
  pattern : InlinePat
  type : InlineKind
deriving DecidableEq, Repr

/-- The static ordered inline shortcut table of the source (two-character
bold delimiters before one-character italic ones, then code, then link). -/
def INLINE_SHORTCUTS : List InlineRule :=
  [ ⟨.emph '*' 2, .bold⟩,
    ⟨.emph '_' 2, .bold⟩,
    ⟨.emph '*' 1, .italic⟩,
    ⟨.emph '_' 1, .italic⟩,
    ⟨.codeP, .code⟩,
    ⟨.linkP, .link⟩ ]

/-- Captured groups of a successful inline match, mirroring the array
destructuring in the source, together with the index just past the match
region in the searched string. -/
inductive MatchRes where
  | emphR (startMark textToFormat endMark : List Char) (matchEnd : Nat)
  | linkR (startMark linkText middleMark linkUrl endMark : List Char) (matchEnd : Nat)
deriving DecidableEq, Repr

/-- Whether the slice of `s` starting at `p` begins with `t`. -/
def sliceEq (s : List Char) (p : Nat) (t : List Char) : Bool :=
  (s.drop p).take t.length = t

/-- Positions at which the alternation `(?:^|\s)` lets a delimiter start:
position 0 (via `^`), or any position directly after a whitespace
character (the whitespace is consumed by the match). -/
def validStart (s : List Char) (p : Nat) : Bool :=
  p = 0 ||
    match s[p - 1]? with
    | some c => jsWs c
    | none => false

/-- Candidate delimiter start positions in increasing order, as the JS
engine tries them (leftmost match wins). -/
def candidates (s : List Char) : List Nat :=
  (List.range (s.length + 1)).filter (validStart s)

/-- First position at which an attempt succeeds. -/
def findFirstSome (f : Nat → Option MatchRes) : List Nat → Option MatchRes
  | [] => none
  | p :: ps =>
      match f p with
      | some r => some r
      | none => findFirstSome f ps

/-- The list `[b, b-1, ..., a]`, for greedy (longest-first) backtracking.
Empty when `b < a`. -/
def revRange (a b : Nat) : List Nat :=
  (List.range' a (b + 1 - a)).reverse

/-- Attempt the emphasis pattern `(d^k)([^d]+)(d^k)` with the opening
delimiter at position `p`.  The inner class excludes `d`, so the greedy
`[^d]+` run is maximal and backtracking cannot move the closing
delimiter: the attempt succeeds exactly when `k` copies of `d` follow the
maximal non-`d` run. -/
def emphAt (d : Char) (k : Nat) (s : List Char) (p : Nat) : Option MatchRes :=
  if sliceEq s p (List.replicate k d) then
    let inner := (s.drop (p + k)).takeWhile (fun c => c ≠ d)
    if inner.length = 0 then none
    else if sliceEq s (p + k + inner.length) (List.replicate k d) then
      some (.emphR (List.replicate k d) inner (List.replicate k d)
        (p + k + inner.length + k))
    else none
  else none

/-- Attempt the code pattern `` (`)(.+)(`) `` with the opening backtick at
position `p`.  The greedy `.+` cannot cross a line terminator; the closing
backtick is the farthest backtick reachable from `p + 2` inside the
terminator-free stretch. -/
def codeAt (s : List Char) (p : Nat) : Option MatchRes :=
  if s[p]? = some '`' then
    let m := p + 1 + ((s.drop (p + 1)).takeWhile nonTerm).length
    match (revRange (p + 2) m).find? (fun r => s[r]? = some '`') with
    | some r =>
        some (.emphR ['`'] ((s.drop (p + 1)).take (r - (p + 1))) ['`'] (r + 1))
    | none => none
  else none

/-- Given the opening bracket at `p` and the `](` marker at `a`, attempt
the url part `(.+)(\))` of the link pattern: the greedy url takes the
farthest `)` reachable from `a + 3` inside the terminator-free stretch. -/
def linkUrlAt (s : List Char) (p a : Nat) : Option MatchRes :=
  let m := a + 2 + ((s.drop (a + 2)).takeWhile nonTerm).length
  match (revRange (a + 3) m).find? (fun b => s[b]? = some ')') with
  | some b =>
      some (.linkR ['['] ((s.drop (p + 1)).take (a - (p + 1))) [']', '(']
        ((s.drop (a + 2)).take (b - (a + 2))) [')'] (b + 1))
  | none => none

/-- Attempt the link pattern `(\[)(.+)(\]\()(.+)(\))` with the opening
bracket at `p`.  The greedy link text backtracks over candidate `](`
positions farthest first, and for each of them the url part must also
succeed. -/
def linkAt (s : List Char) (p : Nat) : Option MatchRes :=
  if s[p]? = some '[' then
    let m := p + 1 + ((s.drop (p + 1)).takeWhile nonTerm).length
    match (revRange (p + 2) m).find? (fun a =>
        s[a]? = some ']' && s[a + 1]? = some '(' && (linkUrlAt s p a).isSome) with
    | some a => linkUrlAt s p a
    | none => none
  else none

/-- Run an inline pattern against a string, JS `String.match` style. -/
def inlinePatMatch (pat : InlinePat) (s : List Char) : Option MatchRes :=
  match pat with
  | .emph d k => findFirstSome (emphAt d k s) (candidates s)
  | .codeP => findFirstSome (codeAt s) (candidates s)
  | .linkP => findFirstSome (linkAt s) (candidates s)

/-- First rule of a list whose pattern matches the string. -/
def firstRuleMatch (s : List Char) : List InlineRule → Option (InlineRule × MatchRes)
  | [] => none
  | r :: rs =>
      match inlinePatMatch r.pattern s with
      | some res => some (r, res)
      | none => firstRuleMatch s rs

/-- First inline rule (in table order) whose pattern matches somewhere in
the string, with its captures (the `for ... of INLINE_SHORTCUTS` loop). -/
def inlineFirstMatch (s : List Char) : Option (InlineRule × MatchRes) :=
  firstRuleMatch s INLINE_SHORTCUTS

/-! ## The `insertText` interceptor -/

/-- Deletion of `length` characters ending at `offset`, the `deleteText`
helper of the source (no-op when the length is zero). -/
def deleteText (content : List Char) (offset length : Nat) : List Char :=
  if length = 0 then content
  else content.take (offset - length) ++ content.drop offset

/-- Which branch of `insertText` fires for a keystroke. -/
inductive InsertAction where
  | defaultInsert
  | blockTransform (r : BlockRule)
  | inlineTransform (r : InlineRule) (res : MatchRes)
deriving DecidableEq, Repr

/-- Decision logic of `editor.insertText`: on a space, try the block
shortcuts against the text from block start to caret and stop on a match;
otherwise (and on block non-match) try the inline shortcuts against the
text from the leaf start to the caret plus the in-flight character; fall
back to default insertion. -/
def insertTextDecision (st : EState) (c : Char) : InsertAction :=
  if c = ' ' then
    match blockFirstMatch (blkTextBefore st) with
    | some r => .blockTransform r
    | none =>
        match inlineFirstMatch (elementTextOf st c) with
        | some (r, res) => .inlineTransform r res
        | none => .defaultInsert
  else
    match inlineFirstMatch (elementTextOf st c) with
    | some (r, res) => .inlineTransform r res
    | none => .defaultInsert

/-- Set the mark a rule applies (`{ [type]: true }` in the source). -/
def setMark (k : InlineKind) (m : Marks) : Marks :=
  match k with
  | .bold => { m with bold := true }
  | .italic => { m with italic := true }
  | .code => { m with code := true }
  | .link => m

/-- The emphasis/code branch of `insertText`: delete the committed part
of the closing delimiter, delete the opening delimiter, and apply the
mark to the inner-text range with `split: true`, following the source's
`endOfSelection` bookkeeping.  Empty side leaves produced by the split
are dropped, as Slate normalization does. -/
def applyEmphTransform (st : EState) (ty : InlineKind)
    (startMark textToFormat endMark : List Char) : EState :=
  let mk := caretLeafMarks st
  let before := st.blk.children.take st.leafIdx
  let after := st.blk.children.drop (st.leafIdx + 1)
  let endMarkLength := endMark.length - 1
  let c1 := deleteText (caretLeafContent st) st.caret endMarkLength
  let e1 := st.caret - endMarkLength
  let c2 := deleteText c1 (e1 - textToFormat.length) startMark.length
  let e2 := e1 - startMark.length
  let t := textToFormat.length
  let a := c2.take (e2 - t)
  let mid := (c2.take e2).drop (e2 - t)
  let z := c2.drop e2
  let pieces :=
    (if a = [] then [] else [Inl.run mk a])
      ++ [Inl.run (setMark ty mk) mid]
      ++ (if z = [] then [] else [Inl.run mk z])
  { st with
    blk := { st.blk with children := before ++ pieces ++ after },
    leafIdx := st.leafIdx + (if a = [] then 0 else 1),
    caret := mid.length }

/-- The link branch of `insertText`: delete the middle marker, url and
committed part of the close paren, delete the open bracket, and wrap the
link-text range in a link node carrying the parsed url.  Slate keeps a
text leaf after an inline element, so the (possibly empty) right piece
remains. -/
def applyLinkTransform (st : EState)
    (startMark linkText middleMark linkUrl endMark : List Char) : EState :=
  let mk := caretLeafMarks st
  let before := st.blk.children.take st.leafIdx
  let after := st.blk.children.drop (st.leafIdx + 1)
  let endMarkLength := endMark.length - 1
  let endLength := middleMark.length + linkUrl.length + endMarkLength
  let c1 := deleteText (caretLeafContent st) st.caret endLength
  let e1 := st.caret - endLength
  let c2 := deleteText c1 (e1 - linkText.length) startMark.length
  let e2 := e1 - startMark.length
  let t := linkText.length
  let a := c2.take (e2 - t)
  let mid := (c2.take e2).drop (e2 - t)
  let z := c2.drop e2
  let pieces :=
    (if a = [] then [] else [Inl.run mk a])
      ++ [Inl.link linkUrl mid mk, Inl.run mk z]
  { st with
    blk := { st.blk with children := before ++ pieces ++ after },
    leafIdx := st.leafIdx + (if a = [] then 1 else 2),
    caret := 0 }

/-- Effect of `editor.insertText` on the state.  Default insertion puts
the character at the caret.  A block transform deletes everything from
block start to caret, retypes the block, and wraps list items in a new
list container.  An inline transform consumes the in-flight character
and performs the matched rule's structural edits. -/
def insertText (st : EState) (c : Char) : EState :=
  match insertTextDecision st c with
  | .defaultInsert =>
      let content := caretLeafContent st
      let l2 : Inl := .run (caretLeafMarks st)
        (content.take st.caret ++ [c] ++ content.drop st.caret)
      { st with
        blk := { st.blk with children := st.blk.children.set st.leafIdx l2 },
        caret := st.caret + 1 }
  | .blockTransform r =>
      let leaf2 : Inl := .run (caretLeafMarks st) ((caretLeafContent st).drop st.caret)
      { wrappers :=
          (if r.type = "list-item" then [r.listType.getD "bulleted-list"] else [])
            ++ st.wrappers,
        blk := { type := r.type,
                 children := leaf2 :: st.blk.children.drop (st.leafIdx + 1) },
        leafIdx := 0,
        caret := 0 }
  | .inlineTransform r res =>
      match res with
      | .emphR startMark textToFormat endMark _ =>
          applyEmphTransform st r.type startMark textToFormat endMark
      | .linkR startMark linkText middleMark linkUrl endMark _ =>
          applyLinkTransform st startMark linkText middleMark linkUrl endMark

/-- Feed a sequence of keystrokes to `insertText`. -/
def typeChars (st : EState) : List Char → EState
  | [] => st
  | c :: cs => typeChars (insertText st c) cs

/-- A fresh empty paragraph with the caret in its single empty leaf. -/
def emptyParagraph : EState :=
  ⟨[], ⟨"paragraph", [.run noMarks []]⟩, 0, 0⟩

/-- A plain unmarked paragraph holding `s` with the caret at its end. -/
def plainState (s : List Char) : EState :=
  ⟨[], ⟨"paragraph", [.run noMarks s]⟩, 0, s.length⟩

/-- All text of the current block, in order. -/
def docText (st : EState) : List Char :=
  (st.blk.children.map inlText).flatten

/-! ## The `deleteBackward` interceptor -/

/-- A block as the deletion interceptor sees it: its type and its text. -/
structure DBlk where
  type : String
  text : List Char
deriving DecidableEq, Repr

/-- A position for the deletion model: index of a block and character
offset into its text; offset 0 is the block's start position. -/
structure DPoint where
  blockIdx : Nat
  offset : Nat
deriving DecidableEq, Repr

/-- Editor state for `deleteBackward`: the document's blocks and the
selection, which may be absent or a non-collapsed anchor/focus pair. -/
structure DState where
  blocks : List DBlk
  selection : Option (DPoint × DPoint)
deriving DecidableEq, Repr

/-- Which branch of `editor.deleteBackward` fires. -/
inductive DeleteAction where
  | outdent (i : Nat)
  | fallback
  | noop
deriving DecidableEq, Repr

/-- Decision logic of `editor.deleteBackward`: with a collapsed selection,
a caret at the start of a block whose type is neither the default
paragraph nor list-item outdents that block; any other collapsed case
falls back to the host's `deleteBackward`.  With no selection or a
non-collapsed one, the interceptor's body is skipped entirely. -/
def deleteBackwardDecision (st : DState) : DeleteAction :=
  match st.selection with
  | some (anchor, focus) =>
      if anchor = focus then
        match st.blocks[anchor.blockIdx]? with
        | some b =>
            if b.type ≠ "paragraph" && b.type ≠ "list-item" && anchor.offset = 0 then
              .outdent anchor.blockIdx
            else
              .fallback
        | none => .fallback
      else .noop
  | none => .noop

/-- Effect of `editor.deleteBackward`, parametric in the host's default
backward deletion (Slate's, outside this plugin): an outdent retypes the
block to paragraph and stops; the fallback invokes the host; otherwise
nothing at all happens. -/
def deleteBackward (st : DState) (host : DState → DState) : DState :=
  match deleteBackwardDecision st with
  | .outdent i =>
      match st.blocks[i]? with
      | some b => { st with blocks := st.blocks.set i { b with type := "paragraph" } }
      | none => st
  | .fallback => host st
  | .noop => st

/-- Opening delimiter captured by an inline pattern. -/
def ruleOpen : InlinePat → List Char
  | .emph d k => List.replicate k d
  | .codeP => ['`']
  | .linkP => ['[']

/-- Closing delimiter captured by an inline pattern. -/
def ruleClose : InlinePat → List Char
  | .emph d k => List.replicate k d
  | .codeP => ['`']
  | .linkP => [')']

/-- End index of the matched region of a match result. -/
def MatchRes.matchEndIdx : MatchRes → Nat
  | .emphR _ _ _ e => e
  | .linkR _ _ _ _ _ e => e

/-- A block of arbitrary type holding an unmarked text `s`, caret at the
end. -/
def typedBlock (T : String) (s : List Char) : EState :=
  ⟨[], ⟨T, [.run noMarks s]⟩, 0, s.length⟩

/-! ## Helper lemmas -/

lemma set_getElem?_self {α : Type} {l : List α} {i : Nat} {a : α}
    (h : l[i]? = some a) : l.set i a = l := by
  apply List.ext_getElem?
  intro n
  rw [List.getElem?_set]
  by_cases hin : i = n
  · subst hin
    have hlt : i < l.length := by
      by_contra hge
      rw [List.getElem?_eq_none (Nat.le_of_not_lt hge)] at h
      exact Option.noConfusion h
    simp [hlt, h]
  · simp [hin]

lemma blkTextBefore_typedBlock (T : String) (s : List Char) :
    blkTextBefore (typedBlock T s) = s := by
  simp [blkTextBefore, typedBlock, caretLeafContent, inlText]

lemma elementTextOf_typedBlock (T : String) (s : List Char) (c : Char) :
    elementTextOf (typedBlock T s) c = s ++ [c] := by
  simp [elementTextOf, typedBlock, caretLeafContent, inlText]

lemma bullets_cases {s : List Char} (h : blockPatMatch .bullets s = true) :
    s = ['*'] ∨ s = ['-'] ∨ s = ['+'] := by
  simpa [blockPatMatch, or_assoc] using h

lemma blockFirstMatch_of_mem {r : BlockRule} {s : List Char}
    (hr : r ∈ BLOCK_SHORTCUTS) (hm : blockPatMatch r.pattern s = true) :
    blockFirstMatch s = some r := by
  simp only [BLOCK_SHORTCUTS, List.mem_cons, List.not_mem_nil, or_false] at hr
  rcases hr with h | h | h | h | h | h <;> subst h
  · exact List.find?_cons_of_pos _ hm
  · have hb : blockPatMatch BlockPat.bullets s = false := by
      by_contra hcon
      rcases bullets_cases (by simpa using hcon) with h1 | h1 | h1 <;>
        (subst h1; revert hm; decide)
    rw [blockFirstMatch, BLOCK_SHORTCUTS, List.find?_cons_of_neg _ (by simp [hb])]
    exact List.find?_cons_of_pos _ (by simpa using hm)
  all_goals (simp only [blockPatMatch] at hm; rw [show s = _ from of_decide_eq_true hm]; decide)

/-- Effect of a block-shortcut space keystroke on a one-leaf block. -/
lemma blockApply (T : String) (s : List Char) (r : BlockRule)
    (h : blockFirstMatch s = some r) :
    insertText (typedBlock T s) ' ' =
      ⟨(if r.type = "list-item" then [r.listType.getD "bulleted-list"] else []),
        ⟨r.type, [.run noMarks []]⟩, 0, 0⟩ := by
  have hdec : insertTextDecision (typedBlock T s) ' ' = .blockTransform r := by
    simp [insertTextDecision, blkTextBefore_typedBlock, h]
  unfold insertText
  rw [hdec]
  simp [typedBlock, caretLeafContent, caretLeafMarks, inlText]

/-! ## Claims about the deletion interceptor -/

/-- C4: on a backward deletion with collapsed selection, caret at the
start of the enclosing block, and block type neither paragraph nor
list-item, the engine retypes the block to paragraph and stops: no
character is deleted and no block merge occurs on that keystroke. -/
theorem C4_outdent_consumes_keystroke (st : DState) (a : DPoint) (b : DBlk)
    (hsel : st.selection = some (a, a))
    (hb : st.blocks[a.blockIdx]? = some b)
    (hoff : a.offset = 0)
    (hp : b.type ≠ "paragraph") (hli : b.type ≠ "list-item") :
    deleteBackwardDecision st = .outdent a.blockIdx ∧
    ∀ host, deleteBackward st host
        = { st with blocks := st.blocks.set a.blockIdx ⟨"paragraph", b.text⟩ } ∧
      (deleteBackward st host).blocks.map DBlk.text = st.blocks.map DBlk.text ∧
      (deleteBackward st host).blocks.length = st.blocks.length := by
  have hdec : deleteBackwardDecision st = .outdent a.blockIdx := by
    unfold deleteBackwardDecision
    rw [hsel]
    simp [hb, hp, hli, hoff]
  refine ⟨hdec, fun host => ?_⟩
  have happ : deleteBackward st host
      = { st with blocks := st.blocks.set a.blockIdx ⟨"paragraph", b.text⟩ } := by
    unfold deleteBackward
    rw [hdec]
    simp only [hb]
  refine ⟨happ, ?_, ?_⟩
  · rw [happ]
    simp only [List.map_set]
    apply set_getElem?_self
    simp [hb]
  · rw [happ]
    simp

/-- Witness for C4 at a concrete heading block. -/
theorem C4_witness :
    deleteBackwardDecision ⟨[⟨"heading-one", ['h', 'i']⟩], some (⟨0, 0⟩, ⟨0, 0⟩)⟩
      = .outdent 0 ∧
    deleteBackward ⟨[⟨"heading-one", ['h', 'i']⟩], some (⟨0, 0⟩, ⟨0, 0⟩)⟩ (fun _ => ⟨[], none⟩)
      = ⟨[⟨"paragraph", ['h', 'i']⟩], some (⟨0, 0⟩, ⟨0, 0⟩)⟩ := by
  have h := C4_outdent_consumes_keystroke
    ⟨[⟨"heading-one", ['h', 'i']⟩], some (⟨0, 0⟩, ⟨0, 0⟩)⟩ ⟨0, 0⟩ ⟨"heading-one", ['h', 'i']⟩
    rfl (by decide) rfl (by decide) (by decide)
  exact ⟨h.1, (h.2 (fun _ => ⟨[], none⟩)).1⟩

/-- C9: with no selection, or with a non-collapsed one, the deletion
interceptor performs no action at all: the state is unchanged and the
host's default deletion is never invoked. -/
theorem C9_nonCollapsed_frame (st : DState)
    (h : st.selection = none ∨ ∃ a f, st.selection = some (a, f) ∧ a ≠ f) :
    deleteBackwardDecision st = .noop ∧ ∀ host, deleteBackward st host = st := by
  have hdec : deleteBackwardDecision st = .noop := by
    unfold deleteBackwardDecision
    rcases h with h | ⟨a, f, hsel, hne⟩
    · rw [h]
    · rw [hsel]
      simp [hne]
  exact ⟨hdec, fun host => by unfold deleteBackward; rw [hdec]⟩

/-- Witness for C9 at a concrete expanded selection. -/
theorem C9_witness :
    deleteBackwardDecision ⟨[⟨"paragraph", ['a', 'b']⟩], some (⟨0, 0⟩, ⟨0, 2⟩)⟩ = .noop ∧
    deleteBackward ⟨[⟨"paragraph", ['a', 'b']⟩], some (⟨0, 0⟩, ⟨0, 2⟩)⟩ (fun _ => ⟨[], none⟩)
      = ⟨[⟨"paragraph", ['a', 'b']⟩], some (⟨0, 0⟩, ⟨0, 2⟩)⟩ := by
  have h := C9_nonCollapsed_frame ⟨[⟨"paragraph", ['a', 'b']⟩], some (⟨0, 0⟩, ⟨0, 2⟩)⟩
    (Or.inr ⟨⟨0, 0⟩, ⟨0, 2⟩, rfl, by decide⟩)
  exact ⟨h.1, h.2 _⟩

/-- C3 fails as stated: on a backward deletion with a non-collapsed
selection the interceptor does not perform the host's default deletion
(it does nothing), contradicting the claim that every decision point
degrades to default deletion even when the selection is absent or
non-collapsed. -/
theorem C3_counterexample :
    deleteBackwardDecision ⟨[⟨"heading-one", ['a']⟩], some (⟨0, 0⟩, ⟨0, 1⟩)⟩
      ≠ .fallback ∧
    deleteBackward ⟨[⟨"heading-one", ['a']⟩], some (⟨0, 0⟩, ⟨0, 1⟩)⟩ (fun _ => ⟨[], none⟩)
      ≠ (⟨[], none⟩ : DState) := by decide

/-- C3 amended: on every backward deletion with a collapsed selection
where the outdent condition does not hold, the engine falls through to
the host's ordinary backward deletion; with an absent or non-collapsed
selection it instead performs no action (see the counterexample). -/
theorem C3_collapsed_fallback (st : DState) (a f : DPoint)
    (hsel : st.selection = some (a, f)) (hcol : a = f)
    (hcond : ∀ b, st.blocks[a.blockIdx]? = some b →
      b.type = "paragraph" ∨ b.type = "list-item" ∨ a.offset ≠ 0) :
    deleteBackwardDecision st = .fallback ∧ ∀ host, deleteBackward st host = host st := by
  subst hcol
  have hdec : deleteBackwardDecision st = .fallback := by
    unfold deleteBackwardDecision
    rw [hsel]
    simp only [if_pos rfl]
    cases hb : st.blocks[a.blockIdx]? with
    | none => simp
    | some b => rcases hcond b hb with h | h | h <;> simp [h]
  exact ⟨hdec, fun host => by unfold deleteBackward; rw [hdec]⟩

/-- Witness for the amended C3: a collapsed caret in the middle of a
paragraph falls back to the host deletion. -/
theorem C3_witness :
    deleteBackwardDecision ⟨[⟨"paragraph", ['a']⟩], some (⟨0, 1⟩, ⟨0, 1⟩)⟩ = .fallback ∧
    deleteBackward ⟨[⟨"paragraph", ['a']⟩], some (⟨0, 1⟩, ⟨0, 1⟩)⟩ (fun _ => ⟨[], none⟩)
      = ⟨[], none⟩ := by
  have h := C3_collapsed_fallback ⟨[⟨"paragraph", ['a']⟩], some (⟨0, 1⟩, ⟨0, 1⟩)⟩
    ⟨0, 1⟩ ⟨0, 1⟩ rfl rfl (by decide)
  exact ⟨h.1, h.2 _⟩

/-! ## Claims settled by direct evaluation and the block-shortcut path -/

/-- C10: the block shortcut path never inspects the current type of the
enclosing block: for every block whose line-prefix text fully matches a
block rule's pattern, a space keystroke retypes the block to the rule's
produced type whatever its current type is. -/
theorem C10_block_shortcut_ignores_type (T : String) (r : BlockRule) (s : List Char)
    (hr : r ∈ BLOCK_SHORTCUTS) (hm : blockPatMatch r.pattern s = true) :
    insertText (typedBlock T s) ' ' =
      ⟨(if r.type = "list-item" then [r.listType.getD "bulleted-list"] else []),
        ⟨r.type, [.run noMarks []]⟩, 0, 0⟩ :=
  blockApply T s r (blockFirstMatch_of_mem hr hm)

/-- Witness for C10: a heading block whose text is a quote trigger
becomes a block-quote. -/
theorem C10_witness :
    insertText (typedBlock "heading-one" ['>']) ' ' =
      ⟨[], ⟨"block-quote", [.run noMarks []]⟩, 0, 0⟩ := by
  have h := C10_block_shortcut_ignores_type "heading-one"
    ⟨.exactly ['>'], "block-quote", none⟩ ['>'] (by decide) (by decide)
  simpa using h

/-- C2 fails on the code and the spec is the intent (the source comment
"The last character is not in the editor" is violated): typing the seven
keystrokes of a bold `_a_` leaves a committed leaf `_a_`, and the next
insertion matches the italic rule with the match region ending at index 3
while the caret-plus-in-flight text has length 4, so the closing
delimiter does not end at the caret and the transform then corrupts the
committed text to `__`, discarding the typed character. -/
theorem C2_match_not_ending_at_caret :
    inlineFirstMatch (elementTextOf (typeChars emptyParagraph ['*','*','_','a','_','*','*']) 'x')
      = some (⟨.emph '_' 1, .italic⟩, .emphR ['_'] ['a'] ['_'] 3) ∧
    (elementTextOf (typeChars emptyParagraph ['*','*','_','a','_','*','*']) 'x').length = 4 ∧
    docText (insertText (typeChars emptyParagraph ['*','*','_','a','_','*','*']) 'x')
      = ['_', '_'] := by decide

/-- C1 fails as stated for the `*` italic rule with an inner text
beginning with a space: in an empty paragraph the lone `*` line prefix
triggers the bulleted-list block shortcut on the space keystroke, so the
result is a list item still containing a literal `*`, not a single
italic run. -/
theorem C1_counterexample :
    typeChars emptyParagraph
        (ruleOpen (.emph '*' 1) ++ [' ', 'a'] ++ ruleClose (.emph '*' 1))
      = ⟨["bulleted-list"], ⟨"list-item", [.run noMarks ['a', '*']]⟩, 0, 2⟩ ∧
    typeChars emptyParagraph
        (ruleOpen (.emph '*' 1) ++ [' ', 'a'] ++ ruleClose (.emph '*' 1))
      ≠ ⟨[], ⟨"paragraph", [.run ⟨false, true, false⟩ [' ', 'a']]⟩, 0, 2⟩ := by decide

/-- C5 fails as stated: prepending the extra character `9` to the
numbered-list trigger `1.` does not disqualify the rule - the extended
prefix `91.` is itself a full match of the same pattern and the space
keystroke still block-transforms. -/
theorem C5_counterexample :
    blockPatMatch BlockPat.numbered ['1', '.'] = true ∧
    blockFirstMatch (['9'] ++ ['1', '.'])
      = some ⟨.numbered, "list-item", some "numbered-list"⟩ ∧
    insertTextDecision (typedBlock "paragraph" (['9'] ++ ['1', '.'])) ' '
      = .blockTransform ⟨.numbered, "list-item", some "numbered-list"⟩ := by decide

/-- C7 fails as stated when the link text contains a parenthesis: typing
the eight keystrokes of a link whose text is `a(b` yields a link node
whose wrapped text still contains `(`, so delimiter characters remain in
the document. -/
theorem C7_counterexample :
    typeChars emptyParagraph ['[', 'a', '(', 'b', ']', '(', 'u', ')']
      = ⟨[], ⟨"paragraph", [.link ['u'] ['a', '(', 'b'] noMarks, .run noMarks []]⟩, 1, 0⟩ ∧
    '(' ∈ docText (typeChars emptyParagraph ['[', 'a', '(', 'b', ']', '(', 'u', ')']) := by
  decide

/-- C8 fails as stated: for the text `*i***word**`, which ends in
`**word**`, the bold pattern matches nowhere (its opening `**` is not
preceded by start-of-text or whitespace) while the italic pattern matches
the leading `*i*`, so the resolution is italic. -/
theorem C8_counterexample :
    inlinePatMatch (InlinePat.emph '*' 2)
        ['*', 'i', '*', '*', '*', 'w', 'o', 'r', 'd', '*', '*'] = none ∧
    (inlineFirstMatch ['*', 'i', '*', '*', '*', 'w', 'o', 'r', 'd', '*', '*']).map
        (fun rm => rm.1.type)
      = some InlineKind.italic := by decide

/-! ## No-match lemmas for the inline resolver -/

lemma sliceEq_head {s : List Char} {p : Nat} {x : Char} {xs : List Char}
    (h : sliceEq s p (x :: xs) = true) : s[p]? = some x := by
  simp only [sliceEq, decide_eq_true_eq] at h
  rw [← List.head?_drop]
  cases hd : s.drop p with
  | nil => rw [hd] at h; simp at h
  | cons a l =>
      rw [hd] at h
      rw [List.length_cons, List.take_succ_cons] at h
      injection h with h1 h2
      rw [h1]
      rfl

lemma mem_of_sliceEq {s : List Char} {p : Nat} {t : List Char}
    (h : sliceEq s p t = true) {c : Char} (hc : c ∈ t) : c ∈ s := by
  simp only [sliceEq, decide_eq_true_eq] at h
  have hmem : c ∈ (s.drop p).take t.length := by rw [h]; exact hc
  exact List.mem_of_mem_drop (List.mem_of_mem_take hmem)

lemma findFirstSome_eq_none {f : Nat → Option MatchRes} {ps : List Nat}
    (h : ∀ p ∈ ps, f p = none) : findFirstSome f ps = none := by
  induction ps with
  | nil => rfl
  | cons p ps ih =>
      unfold findFirstSome
      rw [h p (List.mem_cons_self p ps)]
      exact ih (fun q hq => h q (List.mem_cons_of_mem p hq))

lemma findFirstSome_isSome {f : Nat → Option MatchRes} {ps : List Nat} {p : Nat}
    (hp : p ∈ ps) (h : (f p).isSome = true) : (findFirstSome f ps).isSome = true := by
  induction ps with
  | nil => simp at hp
  | cons q ps ih =>
      unfold findFirstSome
      cases hfq : f q with
      | some r => simp
      | none =>
          rcases List.mem_cons.mp hp with h1 | h1
          · subst h1; rw [hfq] at h; simp at h
          · exact ih h1

lemma emphAt_none_of_not_mem {d : Char} {k : Nat} {s : List Char} (p : Nat)
    (hk : k ≠ 0) (hmem : d ∉ s) : emphAt d k s p = none := by
  unfold emphAt
  rw [if_neg (fun h => hmem (mem_of_sliceEq h (List.mem_replicate.mpr ⟨hk, rfl⟩)))]

lemma codeAt_none_of_not_mem {s : List Char} (p : Nat) (hmem : '`' ∉ s) :
    codeAt s p = none := by
  unfold codeAt
  rw [if_neg (fun h => hmem (List.getElem?_mem h))]

lemma linkUrlAt_none_of_not_mem {s : List Char} (p a : Nat) (hmem : ')' ∉ s) :
    linkUrlAt s p a = none := by
  have h : (revRange (a + 3) (a + 2 + ((s.drop (a + 2)).takeWhile nonTerm).length)).find?
      (fun b => s[b]? = some ')') = none := by
    apply List.find?_eq_none.mpr
    intro b _
    simp only [decide_eq_true_eq]
    exact fun hb => hmem (List.getElem?_mem hb)
  simp only [linkUrlAt, h]

lemma linkAt_none_of_not_mem_open {s : List Char} (p : Nat) (hmem : '[' ∉ s) :
    linkAt s p = none := by
  unfold linkAt
  rw [if_neg (fun h => hmem (List.getElem?_mem h))]

lemma linkAt_none_of_not_mem_close {s : List Char} (p : Nat) (hmem : ')' ∉ s) :
    linkAt s p = none := by
  unfold linkAt
  by_cases hb : s[p]? = some '['
  · rw [if_pos hb]
    have hfind : (revRange (p + 2) (p + 1 + ((s.drop (p + 1)).takeWhile nonTerm).length)).find?
        (fun a => s[a]? = some ']' && s[a + 1]? = some '(' && (linkUrlAt s p a).isSome)
        = none := by
      apply List.find?_eq_none.mpr
      intro a _
      simp [linkUrlAt_none_of_not_mem p a hmem]
    simp only [hfind]
  · rw [if_neg hb]

lemma emph_none_of_not_mem {d : Char} {k : Nat} {s : List Char}
    (hk : k ≠ 0) (hmem : d ∉ s) : inlinePatMatch (.emph d k) s = none :=
  findFirstSome_eq_none (fun p _ => emphAt_none_of_not_mem p hk hmem)

lemma code_none_of_not_mem {s : List Char} (hmem : '`' ∉ s) :
    inlinePatMatch .codeP s = none :=
  findFirstSome_eq_none (fun p _ => codeAt_none_of_not_mem p hmem)

lemma link_none_of_not_mem_open {s : List Char} (hmem : '[' ∉ s) :
    inlinePatMatch .linkP s = none :=
  findFirstSome_eq_none (fun p _ => linkAt_none_of_not_mem_open p hmem)

lemma link_none_of_not_mem_close {s : List Char} (hmem : ')' ∉ s) :
    inlinePatMatch .linkP s = none :=
  findFirstSome_eq_none (fun p _ => linkAt_none_of_not_mem_close p hmem)

lemma inlineFirstMatch_eq_none {s : List Char}
    (h1 : inlinePatMatch (.emph '*' 2) s = none)
    (h2 : inlinePatMatch (.emph '_' 2) s = none)
    (h3 : inlinePatMatch (.emph '*' 1) s = none)
    (h4 : inlinePatMatch (.emph '_' 1) s = none)
    (h5 : inlinePatMatch .codeP s = none)
    (h6 : inlinePatMatch .linkP s = none) :
    inlineFirstMatch s = none := by
  simp [inlineFirstMatch, INLINE_SHORTCUTS, firstRuleMatch, h1, h2, h3, h4, h5, h6]

/-- A string with no delimiter characters matches no inline rule. -/
lemma inlineFirstMatch_none_of_nonDelim {s : List Char}
    (h : ∀ c ∈ s, nonDelim c = true) : inlineFirstMatch s = none := by
  have hstar : '*' ∉ s := fun hm => absurd (h '*' hm) (by decide)
  have hund : '_' ∉ s := fun hm => absurd (h '_' hm) (by decide)
  have htick : '`' ∉ s := fun hm => absurd (h '`' hm) (by decide)
  have hlb : '[' ∉ s := fun hm => absurd (h '[' hm) (by decide)
  exact inlineFirstMatch_eq_none
    (emph_none_of_not_mem (by decide) hstar)
    (emph_none_of_not_mem (by decide) hund)
    (emph_none_of_not_mem (by decide) hstar)
    (emph_none_of_not_mem (by decide) hund)
    (code_none_of_not_mem htick)
    (link_none_of_not_mem_open hlb)

lemma getElem?_rep_append {d : Char} {k : Nat} {t : List Char} {i : Nat} :
    (List.replicate k d ++ t)[i]? = if i < k then some d else t[i - k]? := by
  rw [List.getElem?_append, List.length_replicate]
  split
  · rw [List.getElem?_replicate, if_pos (by assumption)]
  · rfl

lemma validStart_cases {s : List Char} {p : Nat} (h : validStart s p = true) :
    p = 0 ∨ (0 < p ∧ ∃ w, s[p - 1]? = some w ∧ jsWs w = true) := by
  by_cases hp : p = 0
  · exact Or.inl hp
  · right
    refine ⟨Nat.pos_of_ne_zero hp, ?_⟩
    unfold validStart at h
    rw [Bool.or_eq_true] at h
    rcases h with h | h
    · exact absurd (by simpa using h) hp
    · cases hg : s[p - 1]? with
      | none => rw [hg] at h; exact Bool.noConfusion h
      | some c => rw [hg] at h; exact ⟨c, rfl, h⟩

lemma emphAt_none_of_getElem {d : Char} {k' : Nat} {s : List Char} (p : Nat)
    (hk' : k' ≠ 0) (h : s[p]? ≠ some d) : emphAt d k' s p = none := by
  unfold emphAt
  rw [if_neg]
  intro hop
  apply h
  cases k' with
  | zero => exact absurd rfl hk'
  | succ m => exact sliceEq_head (by simpa [List.replicate_succ] using hop)

lemma codeAt_none_of_getElem {s : List Char} (p : Nat) (h : s[p]? ≠ some '`') :
    codeAt s p = none := by
  unfold codeAt
  rw [if_neg h]

lemma mem_revRange {a b r : Nat} (h : r ∈ revRange a b) : a ≤ r ∧ r ≤ b := by
  unfold revRange at h
  rw [List.mem_reverse] at h
  have := List.mem_range'_1.mp h
  omega

lemma codeAt_none_of_no_late_tick {s : List Char} (p : Nat)
    (h : ∀ r, p + 2 ≤ r → s[r]? ≠ some '`') : codeAt s p = none := by
  unfold codeAt
  by_cases h0 : s[p]? = some '`'
  · rw [if_pos h0]
    have hfind : (revRange (p + 2) (p + 1 + ((s.drop (p + 1)).takeWhile nonTerm).length)).find?
        (fun r => s[r]? = some '`') = none := by
      apply List.find?_eq_none.mpr
      intro r hr
      simp only [decide_eq_true_eq]
      exact h r (mem_revRange hr).1
    simp only [hfind]
  · rw [if_neg h0]

lemma rep_append_fact {d : Char} {k : Nat} {t : List Char}
    (ht : ∀ c ∈ t, nonDelim c = true) {i : Nat} {x : Char}
    (h : (List.replicate k d ++ t)[i]? = some x) :
    (i < k ∧ x = d) ∨ (k ≤ i ∧ nonDelim x = true) := by
  rw [getElem?_rep_append] at h
  by_cases hik : i < k
  · rw [if_pos hik] at h
    injection h with h
    exact Or.inl ⟨hik, h.symm⟩
  · rw [if_neg hik] at h
    exact Or.inr ⟨Nat.le_of_not_lt hik, ht x (List.getElem?_mem h)⟩

lemma sliceEq_refl_prefix {w rest : List Char} : sliceEq (w ++ rest) 0 w = true := by
  simp [sliceEq, List.take_left]

lemma sliceEq_past_end {s : List Char} {p : Nat} {w : List Char}
    (hw : w ≠ []) (hs : s.length ≤ p) : sliceEq s p w = false := by
  simp only [sliceEq, List.drop_eq_nil_of_le hs, List.take_nil]
  exact decide_eq_false (fun h => hw h.symm)

lemma takeWhile_ne_all {d : Char} {t : List Char} (hdt : d ∉ t) :
    t.takeWhile (fun c => c ≠ d) = t := by
  rw [List.takeWhile_eq_self_iff]
  intro x hx
  simp only [ne_eq, decide_eq_true_eq]
  exact fun he => hdt (he ▸ hx)

lemma takeWhile_ne_append {d : Char} {t rest : List Char} (hdt : d ∉ t) :
    (t ++ d :: rest).takeWhile (fun c => c ≠ d) = t := by
  induction t with
  | nil => simp [List.takeWhile_cons]
  | cons c t' ih =>
      have hcd : c ≠ d := fun he => hdt (he ▸ List.mem_cons_self c t')
      rw [List.cons_append, List.takeWhile_cons, if_pos (by simpa using hcd)]
      rw [ih (fun hm => hdt (List.mem_cons_of_mem c hm))]

lemma emphAt_eq_of {d : Char} {k' : Nat} {s : List Char} {p : Nat} {inner : List Char}
    (hop : sliceEq s p (List.replicate k' d) = true)
    (hinner : (s.drop (p + k')).takeWhile (fun c => c ≠ d) = inner) :
    emphAt d k' s p = (if inner.length = 0 then none
      else if sliceEq s (p + k' + inner.length) (List.replicate k' d) then
        some (.emphR (List.replicate k' d) inner (List.replicate k' d)
          (p + k' + inner.length + k'))
      else none) := by
  unfold emphAt
  rw [if_pos hop]
  simp only [hinner]

lemma emphAt_none_of_open {d : Char} {k' : Nat} {s : List Char} {p : Nat}
    (h : sliceEq s p (List.replicate k' d) = false) : emphAt d k' s p = none := by
  unfold emphAt
  rw [if_neg (by simp [h])]

lemma drop_rep_append {d : Char} {k : Nat} {t : List Char} :
    (List.replicate k d ++ t).drop k = t := by
  have h := List.drop_left (List.replicate k d) t
  rwa [List.length_replicate] at h

lemma emphAt_none_eq_case {d : Char} {k : Nat} {t : List Char}
    (hk0 : k ≠ 0) (hdt : d ∉ t) :
    emphAt d k (List.replicate k d ++ t) 0 = none := by
  have hop : sliceEq (List.replicate k d ++ t) 0 (List.replicate k d) = true :=
    sliceEq_refl_prefix
  have hinner : ((List.replicate k d ++ t).drop (0 + k)).takeWhile (fun c => c ≠ d) = t := by
    rw [Nat.zero_add, drop_rep_append, takeWhile_ne_all hdt]
  rw [emphAt_eq_of hop hinner]
  by_cases ht0 : t.length = 0
  · rw [if_pos ht0]
  · rw [if_neg ht0]
    have hcl : sliceEq (List.replicate k d ++ t) (k + t.length)
        (List.replicate k d) = false := by
      apply sliceEq_past_end
      · intro he
        apply hk0
        have hlen := congrArg List.length he
        simpa using hlen
      · simp
    rw [if_neg (by simp [hcl])]


/-- An open emphasis delimiter followed only by non-delimiter text matches
no inline rule: this is the committed text while an emphasis or code
shortcut is being typed. -/
lemma inlineFirstMatch_none_prefix {d : Char} {k : Nat} {t : List Char}
    (hd : d = '*' ∨ d = '_' ∨ d = '`') (hk : k = 1 ∨ k = 2)
    (ht : ∀ c ∈ t, nonDelim c = true) :
    inlineFirstMatch (List.replicate k d ++ t) = none := by
  have hdd : nonDelim d = false := by rcases hd with h | h | h <;> subst h <;> decide
  have hdw : jsWs d = false := by rcases hd with h | h | h <;> subst h <;> decide
  have hdt : d ∉ t := fun hm => by rw [ht d hm] at hdd; exact Bool.noConfusion hdd
  have hother : ∀ x : Char, nonDelim x = false → x ≠ d → x ∉ List.replicate k d ++ t := by
    intro x hx hxd hm
    rcases List.mem_append.mp hm with hm | hm
    · exact hxd (List.eq_of_mem_replicate hm)
    · rw [ht x hm] at hx
      exact Bool.noConfusion hx
  have hcand : ∀ p, validStart (List.replicate k d ++ t) p = true → p ≠ 0 →
      (List.replicate k d ++ t)[p]? ≠ some d := by
    intro p hv hp0 hsp
    rcases validStart_cases hv with h | ⟨hpos, w, hw1, hww⟩
    · exact hp0 h
    · have hpk : k ≤ p - 1 := by
        rcases rep_append_fact ht hw1 with ⟨_, hwd⟩ | ⟨hke, _⟩
        · rw [hwd] at hww
          rw [hww] at hdw
          exact Bool.noConfusion hdw
        · exact hke
      rcases rep_append_fact ht hsp with ⟨hlt, _⟩ | ⟨_, hnd⟩
      · omega
      · rw [hnd] at hdd
        exact Bool.noConfusion hdd
  have hemph : ∀ k', k' = 1 ∨ k' = 2 →
      inlinePatMatch (.emph d k') (List.replicate k d ++ t) = none := by
    intro k' hk'
    apply findFirstSome_eq_none
    intro p hp
    have hv := (List.mem_filter.mp hp).2
    by_cases hp0 : p = 0
    · subst hp0
      rcases hk with hke | hke <;> rcases hk' with hk'e | hk'e <;> subst hke <;> subst hk'e
      · exact emphAt_none_eq_case (by decide) hdt
      · apply emphAt_none_of_open
        cases t with
        | nil => simp [sliceEq, List.replicate]
        | cons c t' =>
            have hcd : ¬(c = d) := fun he => hdt (he ▸ List.mem_cons_self c t')
            simp [sliceEq, List.replicate, List.take_succ_cons, hcd]
      · have hop : sliceEq (List.replicate 2 d ++ t) 0 (List.replicate 1 d) = true := by
          simp [sliceEq, List.replicate, List.take_succ_cons]
        have hinner : ((List.replicate 2 d ++ t).drop (0 + 1)).takeWhile
            (fun c => c ≠ d) = [] := by
          have hdrop : (List.replicate 2 d ++ t).drop (0 + 1) = d :: t := by
            simp [List.replicate]
          rw [hdrop, List.takeWhile_cons, if_neg (by simp)]
        rw [emphAt_eq_of hop hinner]
        simp
      · exact emphAt_none_eq_case (by decide) hdt
    · exact emphAt_none_of_getElem p
        (by rcases hk' with h | h <;> subst h <;> decide) (hcand p hv hp0)
  have hcode : d = '`' → inlinePatMatch .codeP (List.replicate k d ++ t) = none := by
    intro hde
    subst hde
    apply findFirstSome_eq_none
    intro p hp
    have hv := (List.mem_filter.mp hp).2
    by_cases hp0 : p = 0
    · subst hp0
      apply codeAt_none_of_no_late_tick
      intro r hr hsr
      rcases rep_append_fact ht hsr with ⟨hlt, _⟩ | ⟨_, hnd⟩
      · rcases hk with h | h <;> subst h <;> omega
      · exact absurd hnd (by decide)
    · exact codeAt_none_of_getElem p (hcand p hv hp0)
  apply inlineFirstMatch_eq_none
  · by_cases h : d = '*'
    · subst h; exact hemph 2 (Or.inr rfl)
    · exact emph_none_of_not_mem (by decide) (hother '*' (by decide) (fun he => h he.symm))
  · by_cases h : d = '_'
    · subst h; exact hemph 2 (Or.inr rfl)
    · exact emph_none_of_not_mem (by decide) (hother '_' (by decide) (fun he => h he.symm))
  · by_cases h : d = '*'
    · subst h; exact hemph 1 (Or.inl rfl)
    · exact emph_none_of_not_mem (by decide) (hother '*' (by decide) (fun he => h he.symm))
  · by_cases h : d = '_'
    · subst h; exact hemph 1 (Or.inl rfl)
    · exact emph_none_of_not_mem (by decide) (hother '_' (by decide) (fun he => h he.symm))
  · by_cases h : d = '`'
    · exact hcode h
    · exact code_none_of_not_mem (hother '`' (by decide) (fun he => h he.symm))
  · refine link_none_of_not_mem_open (hother '[' (by decide) ?_)
    rcases hd with h | h | h <;> subst h <;> decide

/-! ## Typing-loop lemmas -/

lemma insertTextDecision_eq_default {s : List Char} {c : Char}
    (hb : c = ' ' → blockFirstMatch s = none)
    (hi : inlineFirstMatch (s ++ [c]) = none) :
    insertTextDecision (plainState s) c = .defaultInsert := by
  unfold insertTextDecision
  have h1 : blkTextBefore (plainState s) = s := blkTextBefore_typedBlock "paragraph" s
  have h2 : elementTextOf (plainState s) c = s ++ [c] :=
    elementTextOf_typedBlock "paragraph" s c
  by_cases hc : c = ' '
  · rw [if_pos hc, h1, hb hc, h2, hi]
  · rw [if_neg hc, h2, hi]

lemma insertText_default_plain {s : List Char} {c : Char}
    (h : insertTextDecision (plainState s) c = .defaultInsert) :
    insertText (plainState s) c = plainState (s ++ [c]) := by
  unfold insertText
  rw [h]
  simp [plainState, caretLeafContent, caretLeafMarks, inlText,
    List.take_length, List.drop_length]

lemma typeChars_plain (t : List Char) : ∀ (u : List Char),
    (∀ v c w, t = v ++ c :: w →
      insertTextDecision (plainState (u ++ v)) c = .defaultInsert) →
    typeChars (plainState u) t = plainState (u ++ t) := by
  induction t with
  | nil =>
      intro u _
      simp [typeChars]
  | cons c t' ih =>
      intro u h
      unfold typeChars
      have hd := h [] c t' (by simp)
      rw [List.append_nil] at hd
      rw [insertText_default_plain hd]
      have hrec := ih (u ++ [c]) (fun v c' w hvw => by
        have hstep := h (c :: v) c' w (by rw [hvw, List.cons_append])
        have heq : u ++ (c :: v) = (u ++ [c]) ++ v := by simp
        rw [heq] at hstep
        exact hstep)
      rw [hrec]
      congr 1
      simp

lemma blockFirstMatch_none_of_head {s : List Char} {c0 : Char}
    (hh : s.head? = some c0)
    (h1 : s ≠ ['*']) (h2 : c0 ≠ '-') (h3 : c0 ≠ '+') (h4 : c0 ≠ '>') (h5 : c0 ≠ '#')
    (h6 : c0.isDigit = false) :
    blockFirstMatch s = none := by
  apply List.find?_eq_none.mpr
  intro r hr
  cases s with
  | nil => simp at hh
  | cons a s' =>
      have ha : a = c0 := by simpa using hh
      subst ha
      simp only [BLOCK_SHORTCUTS, List.mem_cons, List.not_mem_nil, or_false] at hr
      rcases hr with h | h | h | h | h | h <;> subst h <;> intro hp <;>
        simp only [blockPatMatch, Bool.or_eq_true, Bool.and_eq_true, decide_eq_true_eq] at hp
      · rcases hp with (hp | hp) | hp
        · exact h1 hp
        · injection hp with hx _; exact h2 hx
        · injection hp with hx _; exact h3 hx
      · obtain ⟨⟨hne, hall⟩, _⟩ := hp
        cases s' with
        | nil => exact hne rfl
        | cons b s'' =>
            have hmem : a ∈ (a :: b :: s'').dropLast := by
              rw [List.dropLast_cons₂]
              exact List.mem_cons_self _ _
            have hdig := List.all_eq_true.mp hall a hmem
            rw [h6] at hdig
            exact Bool.noConfusion hdig
      · injection hp with hx _; exact h4 hx
      · injection hp with hx _; exact h5 hx
      · injection hp with hx _; exact h5 hx
      · injection hp with hx _; exact h5 hx

lemma nonDelim_of_isDigit {c : Char} (h : c.isDigit = true) : nonDelim c = true := by
  by_contra hnc
  rw [Bool.not_eq_true] at hnc
  have hcontains : delimChars.contains c = true := by
    cases hfc : delimChars.contains c with
    | true => rfl
    | false => rw [nonDelim, hfc] at hnc; simp at hnc
  have hmem : c ∈ delimChars := List.elem_iff.mp hcontains
  fin_cases hmem <;> exact absurd h (by decide)

lemma typeChars_append (st : EState) (xs ys : List Char) :
    typeChars st (xs ++ ys) = typeChars (typeChars st xs) ys := by
  induction xs generalizing st with
  | nil => rfl
  | cons c xs ih =>
      rw [List.cons_append]
      show typeChars (insertText st c) (xs ++ ys)
        = typeChars (typeChars (insertText st c) xs) ys
      exact ih (insertText st c)

/-- Typing a full block trigger into an empty paragraph and then a space
retypes the block, empties it, and wraps list items in their container. -/
lemma blockRun (r : BlockRule) (hr : r ∈ BLOCK_SHORTCUTS) (s : List Char)
    (hm : blockPatMatch r.pattern s = true) :
    typeChars emptyParagraph (s ++ [' ']) =
      ⟨(if r.type = "list-item" then [r.listType.getD "bulleted-list"] else []),
        ⟨r.type, [.run noMarks []]⟩, 0, 0⟩ := by
  have hfm : blockFirstMatch s = some r := blockFirstMatch_of_mem hr hm
  simp only [BLOCK_SHORTCUTS, List.mem_cons, List.not_mem_nil, or_false] at hr
  rcases hr with h | h | h | h | h | h
  case inr.inl =>
    subst h
    obtain ⟨⟨hne, hall⟩, hl⟩ := by
      simpa only [blockPatMatch, Bool.and_eq_true, decide_eq_true_eq] using hm
    have hdig : ∀ c ∈ s.dropLast, c.isDigit = true :=
      fun c hc => List.all_eq_true.mp hall c hc
    have hs : s.dropLast ++ ['.'] = s :=
      List.dropLast_append_getLast? '.' (Option.mem_def.mpr hl)
    have hchars : ∀ c ∈ s, nonDelim c = true ∧ c ≠ ' ' := by
      intro c hc
      rw [← hs] at hc
      rcases List.mem_append.mp hc with hc | hc
      · have hd := hdig c hc
        refine ⟨nonDelim_of_isDigit hd, fun he => ?_⟩
        subst he
        exact absurd hd (by decide)
      · have hcd : c = '.' := by simpa using hc
        subst hcd
        exact ⟨by decide, by decide⟩
    have hrun : typeChars (plainState []) s = plainState s := by
      have hinit := typeChars_plain s [] (fun v c w hvw => by
        have hcm : c ∈ s := by
          rw [hvw]
          exact List.mem_append_right v (List.mem_cons_self c w)
        apply insertTextDecision_eq_default
        · intro hc
          exact absurd hc (hchars c hcm).2
        · apply inlineFirstMatch_none_of_nonDelim
          intro x hx
          rcases List.mem_append.mp hx with hx | hx
          · have hxs : x ∈ s := by
              rw [hvw]
              exact List.mem_append_left _ (by simpa using hx)
            exact (hchars x hxs).1
          · have hxc : x = c := by simpa using hx
            subst hxc
            exact (hchars x hcm).1)
      simpa using hinit
    have hstep : typeChars emptyParagraph (s ++ [' '])
        = insertText (plainState s) ' ' := by
      rw [show emptyParagraph = plainState [] from rfl, typeChars_append, hrun]
      rfl
    rw [hstep]
    exact blockApply "paragraph" s _ hfm
  all_goals first
  | (subst h
     rcases bullets_cases hm with hb | hb | hb <;> subst hb <;> decide)
  | (subst h
     have hs := of_decide_eq_true hm
     subst hs
     decide)

/-- C5 amended: typing a block rule's exact trigger text in an otherwise
empty block followed by a space transforms the block to the rule's target
type and removes the trigger; matching is anchored over the entire line
prefix, so a prefix that fully matches no rule's pattern is never
block-transformed (extra characters disqualify, except when the extended
prefix again fully matches a pattern, as when digits are prepended to a
numbered-list trigger - see the counterexample). -/
theorem C5_block_trigger_space :
    (∀ r ∈ BLOCK_SHORTCUTS, ∀ s, blockPatMatch r.pattern s = true →
      typeChars emptyParagraph (s ++ [' ']) =
        ⟨(if r.type = "list-item" then [r.listType.getD "bulleted-list"] else []),
          ⟨r.type, [.run noMarks []]⟩, 0, 0⟩) ∧
    (∀ (T : String) (s : List Char),
      (∀ r ∈ BLOCK_SHORTCUTS, blockPatMatch r.pattern s = false) →
      ∀ r', insertTextDecision (typedBlock T s) ' ' ≠ .blockTransform r') := by
  constructor
  · exact fun r hr s hm => blockRun r hr s hm
  · intro T s hnone r' hcon
    have hbm : blockFirstMatch s = none :=
      List.find?_eq_none.mpr (fun r hr => by simp [hnone r hr])
    unfold insertTextDecision at hcon
    rw [if_pos rfl, blkTextBefore_typedBlock, hbm] at hcon
    rcases hmatch : inlineFirstMatch (elementTextOf (typedBlock T s) ' ')
      with _ | ⟨rr, res⟩
    · rw [hmatch] at hcon
      exact InsertAction.noConfusion hcon
    · rw [hmatch] at hcon
      exact InsertAction.noConfusion hcon

/-- Witness for the amended C5: the `-` trigger makes a bulleted list
item, and a non-matching prefix `x` is not block-transformed. -/
theorem C5_witness :
    typeChars emptyParagraph (['-'] ++ [' ']) =
      ⟨["bulleted-list"], ⟨"list-item", [.run noMarks []]⟩, 0, 0⟩ ∧
    insertTextDecision (typedBlock "paragraph" ['x']) ' '
      ≠ .blockTransform ⟨.bullets, "list-item", some "bulleted-list"⟩ := by
  constructor
  · have h := C5_block_trigger_space.1 ⟨.bullets, "list-item", some "bulleted-list"⟩
      (by decide) ['-'] (by decide)
    simpa using h
  · exact C5_block_trigger_space.2 "paragraph" ['x'] (by decide) _

/-- C6: after a list-producing block rule resolves, the retyped list-item
block is wrapped in exactly one new list container of the rule's
container kind; non-list block rules never introduce a container. -/
theorem C6_list_container (r : BlockRule) (hr : r ∈ BLOCK_SHORTCUTS) (s : List Char)
    (hm : blockPatMatch r.pattern s = true) :
    (r.type = "list-item" →
      ∃ ct, r.listType = some ct ∧
        (typeChars emptyParagraph (s ++ [' '])).wrappers = [ct]) ∧
    (r.type ≠ "list-item" →
      (typeChars emptyParagraph (s ++ [' '])).wrappers = []) := by
  have h := blockRun r hr s hm
  constructor
  · intro hli
    simp only [BLOCK_SHORTCUTS, List.mem_cons, List.not_mem_nil, or_false] at hr
    rcases hr with he | he | he | he | he | he <;> subst he
    · exact ⟨"bulleted-list", rfl, by rw [h]; decide⟩
    · exact ⟨"numbered-list", rfl, by rw [h]; decide⟩
    all_goals exact absurd hli (by decide)
  · intro hnli
    rw [h]
    simp [hnli]

/-- Witness for C6: the numbered trigger wraps in one numbered-list
container; the quote trigger wraps in none. -/
theorem C6_witness :
    (∃ ct, (⟨.numbered, "list-item", some "numbered-list"⟩ : BlockRule).listType = some ct ∧
      (typeChars emptyParagraph (['1', '.'] ++ [' '])).wrappers = [ct]) ∧
    (typeChars emptyParagraph (['>'] ++ [' '])).wrappers = [] := by
  constructor
  · exact (C6_list_container ⟨.numbered, "list-item", some "numbered-list"⟩
      (by decide) ['1', '.'] (by decide)).1 rfl
  · exact (C6_list_container ⟨.exactly ['>'], "block-quote", none⟩
      (by decide) ['>'] (by decide)).2 (by decide)

lemma sliceEq_append_shift {u rest w : List Char} :
    sliceEq (u ++ rest) u.length w = sliceEq rest 0 w := by
  simp [sliceEq, List.drop_left]

lemma mem_candidates {s : List Char} {p : Nat} (hp : p ≤ s.length)
    (hv : validStart s p = true) : p ∈ candidates s :=
  List.mem_filter.mpr ⟨List.mem_range.mpr (by omega), hv⟩

lemma inlineFirstMatch_head_some {s : List Char} {res : MatchRes}
    (h : inlinePatMatch (.emph '*' 2) s = some res) :
    inlineFirstMatch s = some (⟨.emph '*' 2, .bold⟩, res) := by
  simp only [inlineFirstMatch, INLINE_SHORTCUTS, firstRuleMatch, h]

lemma getElem?_append_left {α : Type} {l1 l2 : List α} {n : Nat} (h : n < l1.length) :
    (l1 ++ l2)[n]? = l1[n]? := by
  rw [List.getElem?_append, if_pos h]

/-- C8 amended: the bold rules are tried before the italic ones, so for
any text ending in `**word**` whose opening `**` is at the start of the
inline run or directly preceded by whitespace (word nonempty and free of
`*`), typing the final `*` resolves to the first, bold, rule and never to
an italic one.  Without the whitespace-or-start guard the bold pattern
need not match at all (see the counterexample). -/
theorem C8_bold_wins (u w : List Char)
    (hw : w ≠ []) (hstar : '*' ∉ w)
    (hu : u = [] ∨ ∃ u0 c0, u = u0 ++ [c0] ∧ jsWs c0 = true) :
    ∃ res, inlineFirstMatch (u ++ ['*', '*'] ++ w ++ ['*', '*'])
      = some (⟨.emph '*' 2, .bold⟩, res) := by
  have hop : sliceEq (u ++ ['*', '*'] ++ w ++ ['*', '*']) u.length
      (List.replicate 2 '*') = true := by
    rw [show u ++ ['*', '*'] ++ w ++ ['*', '*']
        = u ++ (['*', '*'] ++ (w ++ ['*', '*'])) from by simp, sliceEq_append_shift]
    show sliceEq (List.replicate 2 '*' ++ (w ++ ['*', '*'])) 0 (List.replicate 2 '*') = true
    exact sliceEq_refl_prefix
  have hinner : ((u ++ ['*', '*'] ++ w ++ ['*', '*']).drop (u.length + 2)).takeWhile
      (fun c => c ≠ '*') = w := by
    have hdrop : (u ++ ['*', '*'] ++ w ++ ['*', '*']).drop (u.length + 2)
        = w ++ ['*', '*'] := by
      have h := List.drop_left (u ++ ['*', '*']) (w ++ ['*', '*'])
      rw [List.length_append] at h
      simp only [List.append_assoc, List.length_cons, List.length_nil] at h ⊢
      exact h
    rw [hdrop]
    exact takeWhile_ne_append hstar
  have hcl : sliceEq (u ++ ['*', '*'] ++ w ++ ['*', '*']) (u.length + 2 + w.length)
      (List.replicate 2 '*') = true := by
    have hx : u.length + 2 + w.length = (u ++ ['*', '*'] ++ w).length := by
      simp
      omega
    rw [hx, sliceEq_append_shift]
    decide
  have hval : emphAt '*' 2 (u ++ ['*', '*'] ++ w ++ ['*', '*']) u.length
      = some (.emphR (List.replicate 2 '*') w (List.replicate 2 '*')
          (u.length + 2 + w.length + 2)) := by
    rw [emphAt_eq_of hop hinner,
      if_neg (by simp [List.length_eq_zero, hw]), if_pos hcl]
  have hvs : validStart (u ++ ['*', '*'] ++ w ++ ['*', '*']) u.length = true := by
    rcases hu with hu | ⟨u0, c0, hu, hws⟩
    · subst hu
      simp [validStart]
    · subst hu
      have hget : (u0 ++ [c0] ++ ['*', '*'] ++ w ++ ['*', '*'])[(u0 ++ [c0]).length - 1]?
          = some c0 := by
        rw [show (u0 ++ [c0]).length - 1 = u0.length from by simp]
        rw [show u0 ++ [c0] ++ ['*', '*'] ++ w ++ ['*', '*']
            = (u0 ++ [c0]) ++ (['*', '*'] ++ (w ++ ['*', '*'])) from by simp]
        rw [getElem?_append_left (by simp)]
        exact List.getElem?_concat_length u0 c0
      unfold validStart
      rw [hget]
      simp [hws]
  have hmem : u.length ∈ candidates (u ++ ['*', '*'] ++ w ++ ['*', '*']) := by
    apply mem_candidates _ hvs
    simp
  have hsome : (inlinePatMatch (.emph '*' 2) (u ++ ['*', '*'] ++ w ++ ['*', '*'])).isSome
      = true :=
    findFirstSome_isSome hmem (by rw [hval]; rfl)
  obtain ⟨res, hres⟩ := Option.isSome_iff_exists.mp hsome
  exact ⟨res, inlineFirstMatch_head_some hres⟩

/-- Witness for the amended C8 at `x **hi**` with the final `*` in
flight. -/
theorem C8_witness :
    ∃ res, inlineFirstMatch (['x', ' '] ++ ['*', '*'] ++ ['h', 'i'] ++ ['*', '*'])
      = some (⟨.emph '*' 2, .bold⟩, res) :=
  C8_bold_wins ['x', ' '] ['h', 'i'] (by decide) (by decide)
    (Or.inr ⟨['x'], ' ', rfl, by decide⟩)

lemma sliceEq_tail {s : List Char} {p : Nat} {x : Char} {xs : List Char}
    (h : sliceEq s p (x :: xs) = true) : sliceEq s (p + 1) xs = true := by
  simp only [sliceEq, decide_eq_true_eq] at h ⊢
  cases hd : s.drop p with
  | nil => rw [hd] at h; simp at h
  | cons a l =>
      rw [hd] at h
      rw [List.length_cons, List.take_succ_cons] at h
      injection h with h1 h2
      have hdl : s.drop (p + 1) = l := by
        have hl := congrArg (List.drop 1) hd
        rw [List.drop_drop] at hl
        simpa using hl
      rw [hdl, h2]

lemma rep3_fact {d : Char} {k j : Nat} {t : List Char}
    (ht : ∀ c ∈ t, nonDelim c = true) {i : Nat} {x : Char}
    (h : (List.replicate k d ++ t ++ List.replicate j d)[i]? = some x) :
    (x = d ∧ (i < k ∨ (k + t.length ≤ i ∧ i < k + t.length + j))) ∨
      (nonDelim x = true ∧ k ≤ i ∧ i < k + t.length) := by
  have hlen : (List.replicate k d ++ t).length = k + t.length := by simp
  by_cases h1 : i < k + t.length
  · rw [getElem?_append_left (by rw [hlen]; omega)] at h
    rcases rep_append_fact ht h with ⟨hik, hx⟩ | ⟨hik, hx⟩
    · exact Or.inl ⟨hx, Or.inl hik⟩
    · exact Or.inr ⟨hx, hik, h1⟩
  · rw [List.getElem?_append, if_neg (by rw [hlen]; omega), hlen,
      List.getElem?_replicate] at h
    by_cases h2 : i - (k + t.length) < j
    · rw [if_pos h2] at h
      injection h with h
      exact Or.inl ⟨h.symm, Or.inr ⟨by omega, by omega⟩⟩
    · rw [if_neg h2] at h
      exact Option.noConfusion h

lemma not_mem_rep3 {d x : Char} {k j : Nat} {t : List Char}
    (ht : ∀ c ∈ t, nonDelim c = true) (hxd : x ≠ d) (hxn : nonDelim x = false) :
    x ∉ List.replicate k d ++ t ++ List.replicate j d := by
  intro hm
  rcases List.mem_append.mp hm with hm | hm
  · rcases List.mem_append.mp hm with hm | hm
    · exact hxd (List.eq_of_mem_replicate hm)
    · rw [ht x hm] at hxn
      exact Bool.noConfusion hxn
  · exact hxd (List.eq_of_mem_replicate hm)

lemma revRange_cons {a b : Nat} (ha : 1 ≤ a) (hab : a ≤ b) :
    revRange a b = b :: revRange a (b - 1) := by
  unfold revRange
  rw [show b + 1 - a = (b - a) + 1 from by omega,
    show b - 1 + 1 - a = b - a from by omega,
    List.range'_1_concat, List.reverse_append,
    show a + (b - a) = b from by omega]
  rfl

lemma find?_revRange_eq_of {p : Nat → Bool} {a x : Nat} (ha : 1 ≤ a) (hax : a ≤ x) :
    ∀ b, x ≤ b → p x = true → (∀ r, x < r → r ≤ b → p r = false) →
    (revRange a b).find? p = some x := by
  intro b
  induction b with
  | zero =>
      intro hxb _ _
      exact absurd hxb (by omega)
  | succ n ih =>
      intro hxb hx habove
      by_cases hxe : x = n + 1
      · subst hxe
        rw [revRange_cons ha hax]
        exact List.find?_cons_of_pos _ hx
      · have hxn : x ≤ n := by omega
        rw [revRange_cons ha (by omega),
          List.find?_cons_of_neg _ (by simp [habove (n + 1) (by omega) (Nat.le_refl _)]),
          Nat.add_sub_cancel]
        exact ih hxn hx (fun r hr1 hr2 => habove r hr1 (by omega))

lemma findFirstSome_candidates_zero {s : List Char} {f : Nat → Option MatchRes}
    {r : MatchRes} (h : f 0 = some r) : findFirstSome f (candidates s) = some r := by
  unfold candidates
  rw [List.range_succ_eq_map, List.filter_cons, if_pos (by simp [validStart])]
  unfold findFirstSome
  rw [h]

lemma emph2_none_single {d : Char} {t : List Char}
    (ht : ∀ c ∈ t, nonDelim c = true) (htne : t ≠ [])
    (hdd : nonDelim d = false) :
    inlinePatMatch (.emph d 2) (List.replicate 1 d ++ t ++ List.replicate 1 d) = none := by
  have htl : t.length ≠ 0 := fun h0 => htne (List.length_eq_zero.mp h0)
  apply findFirstSome_eq_none
  intro p _
  unfold emphAt
  rw [if_neg]
  intro hsl
  have hsl2 : sliceEq (List.replicate 1 d ++ t ++ List.replicate 1 d) p (d :: [d]) = true := by
    simpa [List.replicate] using hsl
  have h1 : (List.replicate 1 d ++ t ++ List.replicate 1 d)[p]? = some d :=
    sliceEq_head hsl2
  have h2 : (List.replicate 1 d ++ t ++ List.replicate 1 d)[p + 1]? = some d :=
    sliceEq_head (sliceEq_tail hsl2)
  rcases rep3_fact ht h1 with ⟨_, hp⟩ | ⟨hnd, _⟩
  · rcases rep3_fact ht h2 with ⟨_, hp1⟩ | ⟨hnd, _⟩
    · omega
    · rw [hnd] at hdd
      exact Bool.noConfusion hdd
  · rw [hnd] at hdd
    exact Bool.noConfusion hdd

/-- While the first character of a two-character closing delimiter has
just been committed, the text open-delimiter + inner + one closing
character still matches no inline rule. -/
lemma inlineFirstMatch_none_midclose {d : Char} {t : List Char}
    (hd : d = '*' ∨ d = '_') (ht : ∀ c ∈ t, nonDelim c = true) (htne : t ≠ []) :
    inlineFirstMatch (List.replicate 2 d ++ t ++ List.replicate 1 d) = none := by
  have hdd : nonDelim d = false := by rcases hd with h | h <;> subst h <;> decide
  have hdw : jsWs d = false := by rcases hd with h | h <;> subst h <;> decide
  have hdt : d ∉ t := fun hm => by rw [ht d hm] at hdd; exact Bool.noConfusion hdd
  have htl : t.length ≠ 0 := fun h0 => htne (List.length_eq_zero.mp h0)
  have hdropend : (List.replicate 2 d ++ t ++ List.replicate 1 d).drop (2 + t.length)
      = List.replicate 1 d := by
    have h := List.drop_left (List.replicate 2 d ++ t) (List.replicate 1 d)
    have hlen2 : (List.replicate 2 d ++ t).length = 2 + t.length := by
      simp
      omega
    rw [hlen2] at h
    exact h
  have hemph2 : inlinePatMatch (.emph d 2)
      (List.replicate 2 d ++ t ++ List.replicate 1 d) = none := by
    apply findFirstSome_eq_none
    intro p _
    by_cases hp0 : p = 0
    · subst hp0
      have hop : sliceEq (List.replicate 2 d ++ t ++ List.replicate 1 d) 0
          (List.replicate 2 d) = true := by
        rw [List.append_assoc]
        exact sliceEq_refl_prefix
      have hinner : ((List.replicate 2 d ++ t ++ List.replicate 1 d).drop (0 + 2)).takeWhile
          (fun c => c ≠ d) = t := by
        rw [List.append_assoc, Nat.zero_add, drop_rep_append]
        exact takeWhile_ne_append hdt
      rw [emphAt_eq_of hop hinner, if_neg (by simpa using htl)]
      have hcl : sliceEq (List.replicate 2 d ++ t ++ List.replicate 1 d) (2 + t.length)
          (List.replicate 2 d) = false := by
        unfold sliceEq
        rw [hdropend]
        simp [List.replicate]
      rw [if_neg (fun hcon => by
        rw [show 0 + 2 + t.length = 2 + t.length from by omega, hcl] at hcon
        exact Bool.noConfusion hcon)]
    · unfold emphAt
      rw [if_neg]
      intro hsl
      have hsl2 : sliceEq (List.replicate 2 d ++ t ++ List.replicate 1 d) p
          (d :: [d]) = true := by
        simpa [List.replicate] using hsl
      have h1 := sliceEq_head hsl2
      have h2 := sliceEq_head (sliceEq_tail hsl2)
      rcases rep3_fact ht h1 with ⟨_, hp⟩ | ⟨hnd, _⟩
      · rcases rep3_fact ht h2 with ⟨_, hp1⟩ | ⟨hnd, _⟩
        · omega
        · rw [hnd] at hdd
          exact Bool.noConfusion hdd
      · rw [hnd] at hdd
        exact Bool.noConfusion hdd
  have hemph1 : inlinePatMatch (.emph d 1)
      (List.replicate 2 d ++ t ++ List.replicate 1 d) = none := by
    apply findFirstSome_eq_none
    intro p hp
    have hv := (List.mem_filter.mp hp).2
    by_cases hp0 : p = 0
    · subst hp0
      have hop : sliceEq (List.replicate 2 d ++ t ++ List.replicate 1 d) 0
          (List.replicate 1 d) = true := by
        have hsplit : List.replicate 2 d ++ t ++ List.replicate 1 d
            = List.replicate 1 d ++ (List.replicate 1 d ++ t ++ List.replicate 1 d) := by
          simp [List.replicate]
        rw [hsplit]
        exact sliceEq_refl_prefix
      have hinner : ((List.replicate 2 d ++ t ++ List.replicate 1 d).drop (0 + 1)).takeWhile
          (fun c => c ≠ d) = [] := by
        have hdrop : (List.replicate 2 d ++ t ++ List.replicate 1 d).drop (0 + 1)
            = d :: (t ++ List.replicate 1 d) := by
          simp [List.replicate]
        rw [hdrop, List.takeWhile_cons, if_neg (by simp)]
      rw [emphAt_eq_of hop hinner]
      simp
    · rcases validStart_cases hv with h | ⟨hpos, w, hw1, hww⟩
      · exact absurd h hp0
      · have hwnd : 2 ≤ p - 1 ∧ p - 1 < 2 + t.length := by
          rcases rep3_fact ht hw1 with ⟨hwd, _⟩ | ⟨_, hb1, hb2⟩
          · rw [hwd] at hww
            rw [hww] at hdw
            exact Bool.noConfusion hdw
          · exact ⟨hb1, hb2⟩
        by_cases hpe : p = 2 + t.length
        · subst hpe
          have hop : sliceEq (List.replicate 2 d ++ t ++ List.replicate 1 d)
              (2 + t.length) (List.replicate 1 d) = true := by
            unfold sliceEq
            rw [hdropend]
            simp [List.replicate]
          have hinner : ((List.replicate 2 d ++ t ++ List.replicate 1 d).drop
              (2 + t.length + 1)).takeWhile (fun c => c ≠ d) = [] := by
            have hnil : (List.replicate 2 d ++ t ++ List.replicate 1 d).drop
                (2 + t.length + 1) = [] := by
              apply List.drop_eq_nil_of_le
              simp
              omega
            rw [hnil]
            rfl
          rw [emphAt_eq_of hop hinner]
          simp
        · apply emphAt_none_of_getElem p (by decide)
          intro hsp
          rcases rep3_fact ht hsp with ⟨_, hrange⟩ | ⟨hnd, _⟩
          · omega
          · rw [hnd] at hdd
            exact Bool.noConfusion hdd
  apply inlineFirstMatch_eq_none
  · by_cases h : d = '*'
    · subst h; exact hemph2
    · exact emph_none_of_not_mem (by decide)
        (not_mem_rep3 ht (fun he => h he.symm) (by decide))
  · by_cases h : d = '_'
    · subst h; exact hemph2
    · exact emph_none_of_not_mem (by decide)
        (not_mem_rep3 ht (fun he => h he.symm) (by decide))
  · by_cases h : d = '*'
    · subst h; exact hemph1
    · exact emph_none_of_not_mem (by decide)
        (not_mem_rep3 ht (fun he => h he.symm) (by decide))
  · by_cases h : d = '_'
    · subst h; exact hemph1
    · exact emph_none_of_not_mem (by decide)
        (not_mem_rep3 ht (fun he => h he.symm) (by decide))
  · refine code_none_of_not_mem (not_mem_rep3 ht ?_ (by decide))
    rcases hd with h | h <;> subst h <;> decide
  · refine link_none_of_not_mem_open (not_mem_rep3 ht ?_ (by decide))
    rcases hd with h | h <;> subst h <;> decide

lemma emphAt_full {d : Char} {k : Nat} {t : List Char}
    (hk0 : k ≠ 0) (hdt : d ∉ t) (htne : t ≠ []) :
    emphAt d k (List.replicate k d ++ t ++ List.replicate k d) 0
      = some (.emphR (List.replicate k d) t (List.replicate k d)
          (0 + k + t.length + k)) := by
  have hop : sliceEq (List.replicate k d ++ t ++ List.replicate k d) 0
      (List.replicate k d) = true := by
    rw [List.append_assoc]
    exact sliceEq_refl_prefix
  have hinner : ((List.replicate k d ++ t ++ List.replicate k d).drop (0 + k)).takeWhile
      (fun c => c ≠ d) = t := by
    rw [List.append_assoc, Nat.zero_add, drop_rep_append]
    cases k with
    | zero => exact absurd rfl hk0
    | succ m =>
        rw [List.replicate_succ]
        exact takeWhile_ne_append hdt
  have hcl : sliceEq (List.replicate k d ++ t ++ List.replicate k d) (0 + k + t.length)
      (List.replicate k d) = true := by
    have hdrop : (List.replicate k d ++ t ++ List.replicate k d).drop (k + t.length)
        = List.replicate k d := by
      have h := List.drop_left (List.replicate k d ++ t) (List.replicate k d)
      rw [show (List.replicate k d ++ t).length = k + t.length from by simp] at h
      exact h
    unfold sliceEq
    rw [Nat.zero_add, hdrop, List.take_length]
    simp
  rw [emphAt_eq_of hop hinner,
    if_neg (by simpa using (fun h0 => htne (List.length_eq_zero.mp h0) : ¬t.length = 0)),
    if_pos hcl]

lemma codeAt_full {t : List Char} (htick : '`' ∉ t) (htne : t ≠ [])
    (hterm : ∀ c ∈ t, nonTerm c = true) :
    codeAt (List.replicate 1 '`' ++ t ++ List.replicate 1 '`') 0
      = some (.emphR ['`'] t ['`'] (t.length + 2)) := by
  have htl : 1 ≤ t.length := by
    cases t with
    | nil => exact absurd rfl htne
    | cons a l => simp
  have hs0 : (List.replicate 1 '`' ++ t ++ List.replicate 1 '`')[0]? = some '`' := by
    simp [List.replicate]
  have hdrop1 : (List.replicate 1 '`' ++ t ++ List.replicate 1 '`').drop (0 + 1)
      = t ++ ['`'] := by
    simp [List.replicate]
  have htw : (((List.replicate 1 '`' ++ t ++ List.replicate 1 '`').drop (0 + 1)).takeWhile
      nonTerm).length = t.length + 1 := by
    rw [hdrop1]
    have hself : (t ++ ['`']).takeWhile nonTerm = t ++ ['`'] := by
      rw [List.takeWhile_eq_self_iff]
      intro x hx
      rcases List.mem_append.mp hx with hx | hx
      · exact hterm x hx
      · have hxe : x = '`' := by simpa using hx
        subst hxe
        decide
    rw [hself]
    simp
  have hat : (List.replicate 1 '`' ++ t ++ List.replicate 1 '`')[t.length + 1]?
      = some '`' := by
    have h := List.getElem?_concat_length (List.replicate 1 '`' ++ t) '`'
    rw [show (List.replicate 1 '`' ++ t).length = t.length + 1 from by simp] at h
    exact h
  have hlen : (List.replicate 1 '`' ++ t ++ List.replicate 1 '`').length = t.length + 2 := by
    simp
  have hfind : (revRange 2 (0 + 1 + (((List.replicate 1 '`' ++ t ++
      List.replicate 1 '`').drop (0 + 1)).takeWhile nonTerm).length)).find?
      (fun r => (List.replicate 1 '`' ++ t ++ List.replicate 1 '`')[r]? = some '`')
      = some (t.length + 1) := by
    rw [htw, show 0 + 1 + (t.length + 1) = t.length + 2 from by omega]
    apply find?_revRange_eq_of (by omega) (by omega) (t.length + 2) (by omega)
      (by simp [hat])
    intro r hr1 hr2
    have hre : r = t.length + 2 := by omega
    subst hre
    have hnone : (List.replicate 1 '`' ++ t ++ List.replicate 1 '`')[t.length + 2]? = none :=
      List.getElem?_eq_none (by rw [hlen])
    show decide ((List.replicate 1 '`' ++ t ++ List.replicate 1 '`')[t.length + 2]?
      = some '`') = false
    rw [hnone]
    rfl
  unfold codeAt
  rw [if_pos hs0]
  simp only [hfind]
  rw [hdrop1]
  simp [List.take_left]

lemma inlineFirstMatch_rule2 {s : List Char} {res : MatchRes}
    (h1 : inlinePatMatch (.emph '*' 2) s = none)
    (h2 : inlinePatMatch (.emph '_' 2) s = some res) :
    inlineFirstMatch s = some (⟨.emph '_' 2, .bold⟩, res) := by
  simp only [inlineFirstMatch, INLINE_SHORTCUTS, firstRuleMatch, h1, h2]

lemma inlineFirstMatch_rule3 {s : List Char} {res : MatchRes}
    (h1 : inlinePatMatch (.emph '*' 2) s = none)
    (h2 : inlinePatMatch (.emph '_' 2) s = none)
    (h3 : inlinePatMatch (.emph '*' 1) s = some res) :
    inlineFirstMatch s = some (⟨.emph '*' 1, .italic⟩, res) := by
  simp only [inlineFirstMatch, INLINE_SHORTCUTS, firstRuleMatch, h1, h2, h3]

lemma inlineFirstMatch_rule4 {s : List Char} {res : MatchRes}
    (h1 : inlinePatMatch (.emph '*' 2) s = none)
    (h2 : inlinePatMatch (.emph '_' 2) s = none)
    (h3 : inlinePatMatch (.emph '*' 1) s = none)
    (h4 : inlinePatMatch (.emph '_' 1) s = some res) :
    inlineFirstMatch s = some (⟨.emph '_' 1, .italic⟩, res) := by
  simp only [inlineFirstMatch, INLINE_SHORTCUTS, firstRuleMatch, h1, h2, h3, h4]

lemma inlineFirstMatch_rule5 {s : List Char} {res : MatchRes}
    (h1 : inlinePatMatch (.emph '*' 2) s = none)
    (h2 : inlinePatMatch (.emph '_' 2) s = none)
    (h3 : inlinePatMatch (.emph '*' 1) s = none)
    (h4 : inlinePatMatch (.emph '_' 1) s = none)
    (h5 : inlinePatMatch .codeP s = some res) :
    inlineFirstMatch s = some (⟨.codeP, .code⟩, res) := by
  simp only [inlineFirstMatch, INLINE_SHORTCUTS, firstRuleMatch, h1, h2, h3, h4, h5]

lemma insertTextDecision_eq_inline {s : List Char} {c : Char} {rule : InlineRule}
    {res : MatchRes} (hc : c ≠ ' ')
    (hi : inlineFirstMatch (s ++ [c]) = some (rule, res)) :
    insertTextDecision (plainState s) c = .inlineTransform rule res := by
  unfold insertTextDecision
  have h2 : elementTextOf (plainState s) c = s ++ [c] :=
    elementTextOf_typedBlock "paragraph" s c
  rw [if_neg hc, h2, hi]

lemma insertText_emph {s : List Char} {c : Char} {rule : InlineRule}
    {sm t em : List Char} {e : Nat}
    (hdec : insertTextDecision (plainState s) c = .inlineTransform rule (.emphR sm t em e)) :
    insertText (plainState s) c = applyEmphTransform (plainState s) rule.type sm t em := by
  unfold insertText
  rw [hdec]

lemma applyEmphTransform_plain1 {d : Char} {t : List Char} (ty : InlineKind) :
    applyEmphTransform (plainState (List.replicate 1 d ++ t)) ty
      (List.replicate 1 d) t (List.replicate 1 d)
      = ⟨[], ⟨"paragraph", [.run (setMark ty noMarks) t]⟩, 0, t.length⟩ := by
  have hco : List.replicate 1 d ++ t = d :: t := by simp [List.replicate]
  rw [hco]
  simp [applyEmphTransform, plainState, caretLeafContent, caretLeafMarks, inlText,
    deleteText, Nat.add_sub_cancel_left, Nat.add_sub_cancel, List.take_length,
    List.drop_length]

lemma applyEmphTransform_plain2 {d : Char} {t : List Char} (ty : InlineKind) :
    applyEmphTransform (plainState (List.replicate 2 d ++ t ++ List.replicate 1 d)) ty
      (List.replicate 2 d) t (List.replicate 2 d)
      = ⟨[], ⟨"paragraph", [.run (setMark ty noMarks) t]⟩, 0, t.length⟩ := by
  have hco : List.replicate 2 d ++ t ++ List.replicate 1 d = d :: d :: (t ++ [d]) := by
    simp [List.replicate]
  rw [hco]
  simp [applyEmphTransform, plainState, caretLeafContent, caretLeafMarks, inlText,
    deleteText, Nat.add_sub_cancel_left, Nat.add_sub_cancel, List.take_length,
    List.drop_length]
  rw [show t.length + 1 + 1 - t.length - 2 = 0 from by omega,
    show t.length + 1 + 1 - t.length = 2 from by omega,
    show t.length + 1 + 1 - 2 = t.length from by omega]
  simp [List.take_length]

lemma typeCommitted {d : Char} {k : Nat} {t : List Char}
    (hd : d = '*' ∨ d = '_' ∨ d = '`') (hk : k = 1 ∨ k = 2)
    (ht : ∀ c ∈ t, nonDelim c = true)
    (hsp : d = '*' → k = 1 → t.head? ≠ some ' ') :
    typeChars (plainState []) (List.replicate k d ++ t)
      = plainState (List.replicate k d ++ t) := by
  apply typeChars_plain
  intro v c w hvw
  simp only [List.nil_append]
  have hd_not_space : d ≠ ' ' := by rcases hd with h | h | h <;> subst h <;> decide
  rcases hk with hk | hk <;> subst hk
  · rw [show List.replicate 1 d ++ t = d :: t from by simp [List.replicate]] at hvw
    cases v with
    | nil =>
        injection hvw with h1 h2
        subst h1
        apply insertTextDecision_eq_default
        · intro hceq
          exact absurd hceq.symm (Ne.symm hd_not_space)
        · have hn := inlineFirstMatch_none_prefix (t := []) hd (Or.inl rfl) (by simp)
          simpa using hn
    | cons a v' =>
        injection hvw with h1 h2
        subst h1
        have hcm : c ∈ t := by
          rw [h2]
          exact List.mem_append_right v' (List.mem_cons_self c w)
        apply insertTextDecision_eq_default
        · intro hceq
          refine blockFirstMatch_none_of_head rfl ?_ ?_ ?_ ?_ ?_ ?_
          · intro he
            have hde : d = '*' ∧ v' = [] := by
              injection he with he1 he2
              exact ⟨he1, he2⟩
            have hh2 := hsp hde.1 rfl
            apply hh2
            rw [h2, hde.2]
            simp [hceq]
          all_goals (rcases hd with h | h | h <;> subst h <;> decide)
        · have hnd : ∀ x ∈ v' ++ [c], nonDelim x = true := by
            intro x hx
            rcases List.mem_append.mp hx with hx | hx
            · exact ht x (by rw [h2]; exact List.mem_append_left _ hx)
            · have hxc : x = c := by simpa using hx
              subst hxc
              exact ht x hcm
          have hn := inlineFirstMatch_none_prefix hd (Or.inl rfl) hnd
          simpa [List.replicate] using hn
  · rw [show List.replicate 2 d ++ t = d :: d :: t from by simp [List.replicate]] at hvw
    cases v with
    | nil =>
        injection hvw with h1 h2
        subst h1
        apply insertTextDecision_eq_default
        · intro hceq
          exact absurd hceq.symm (Ne.symm hd_not_space)
        · have hn := inlineFirstMatch_none_prefix (t := []) hd (Or.inl rfl) (by simp)
          simpa using hn
    | cons a v'' =>
        injection hvw with h1 hvw2
        subst h1
        cases v'' with
        | nil =>
            injection hvw2 with h1 h2
            subst h1
            apply insertTextDecision_eq_default
            · intro hceq
              exact absurd hceq.symm (Ne.symm hd_not_space)
            · have hn := inlineFirstMatch_none_prefix (t := []) hd (Or.inr rfl) (by simp)
              simpa [List.replicate] using hn
        | cons b v' =>
            injection hvw2 with h1 h2
            subst h1
            have hcm : c ∈ t := by
              rw [h2]
              exact List.mem_append_right v' (List.mem_cons_self c w)
            apply insertTextDecision_eq_default
            · intro hceq
              refine blockFirstMatch_none_of_head rfl ?_ ?_ ?_ ?_ ?_ ?_
              · intro he
                have hlen := congrArg List.length he
                simp at hlen
              all_goals (rcases hd with h | h | h <;> subst h <;> decide)
            · have hnd : ∀ x ∈ v' ++ [c], nonDelim x = true := by
                intro x hx
                rcases List.mem_append.mp hx with hx | hx
                · exact ht x (by rw [h2]; exact List.mem_append_left _ hx)
                · have hxc : x = c := by simpa using hx
                  subst hxc
                  exact ht x hcm
              have hn := inlineFirstMatch_none_prefix hd (Or.inr rfl) hnd
              simpa [List.replicate] using hn

lemma emphRun1 {d : Char} {t : List Char} {e : Nat} (rule : InlineRule)
    (hd : d = '*' ∨ d = '_' ∨ d = '`')
    (ht : ∀ c ∈ t, nonDelim c = true)
    (hsp : d = '*' → t.head? ≠ some ' ')
    (hres : inlineFirstMatch (List.replicate 1 d ++ t ++ List.replicate 1 d)
      = some (rule, .emphR (List.replicate 1 d) t (List.replicate 1 d) e)) :
    typeChars emptyParagraph (List.replicate 1 d ++ t ++ List.replicate 1 d)
      = ⟨[], ⟨"paragraph", [.run (setMark rule.type noMarks) t]⟩, 0, t.length⟩ := by
  have hd_ne : d ≠ ' ' := by rcases hd with h | h | h <;> subst h <;> decide
  rw [show List.replicate 1 d ++ t ++ List.replicate 1 d
      = (List.replicate 1 d ++ t) ++ [d] from by simp [List.replicate],
    typeChars_append,
    show emptyParagraph = plainState [] from rfl,
    typeCommitted hd (Or.inl rfl) ht (fun hd' _ => hsp hd'),
    show typeChars (plainState (List.replicate 1 d ++ t)) [d]
      = insertText (plainState (List.replicate 1 d ++ t)) d from rfl]
  have hres2 : inlineFirstMatch ((List.replicate 1 d ++ t) ++ [d])
      = some (rule, .emphR (List.replicate 1 d) t (List.replicate 1 d) e) := by
    rw [show (List.replicate 1 d ++ t) ++ [d]
        = List.replicate 1 d ++ t ++ List.replicate 1 d from by simp [List.replicate]]
    exact hres
  rw [insertText_emph (insertTextDecision_eq_inline hd_ne hres2)]
  exact applyEmphTransform_plain1 rule.type

lemma emphRun2 {d : Char} {t : List Char} {e : Nat} (rule : InlineRule)
    (hd : d = '*' ∨ d = '_')
    (ht : ∀ c ∈ t, nonDelim c = true) (htne : t ≠ [])
    (hres : inlineFirstMatch (List.replicate 2 d ++ t ++ List.replicate 2 d)
      = some (rule, .emphR (List.replicate 2 d) t (List.replicate 2 d) e)) :
    typeChars emptyParagraph (List.replicate 2 d ++ t ++ List.replicate 2 d)
      = ⟨[], ⟨"paragraph", [.run (setMark rule.type noMarks) t]⟩, 0, t.length⟩ := by
  have hd3 : d = '*' ∨ d = '_' ∨ d = '`' := by
    rcases hd with h | h
    · exact Or.inl h
    · exact Or.inr (Or.inl h)
  have hd_ne : d ≠ ' ' := by rcases hd with h | h <;> subst h <;> decide
  rw [show List.replicate 2 d ++ t ++ List.replicate 2 d
      = ((List.replicate 2 d ++ t) ++ [d]) ++ [d] from by simp [List.replicate],
    typeChars_append, typeChars_append,
    show emptyParagraph = plainState [] from rfl,
    typeCommitted hd3 (Or.inr rfl) ht (fun _ h => absurd h (by decide)),
    show typeChars (plainState (List.replicate 2 d ++ t)) [d]
      = insertText (plainState (List.replicate 2 d ++ t)) d from rfl]
  have hmiddec : insertTextDecision (plainState (List.replicate 2 d ++ t)) d
      = .defaultInsert := by
    apply insertTextDecision_eq_default
    · intro h
      exact absurd h.symm (Ne.symm hd_ne)
    · have hn := inlineFirstMatch_none_midclose hd ht htne
      simpa [List.replicate, List.append_assoc] using hn
  rw [insertText_default_plain hmiddec]
  rw [show (List.replicate 2 d ++ t) ++ [d]
      = List.replicate 2 d ++ t ++ List.replicate 1 d from by simp [List.replicate],
    show typeChars (plainState (List.replicate 2 d ++ t ++ List.replicate 1 d)) [d]
      = insertText (plainState (List.replicate 2 d ++ t ++ List.replicate 1 d)) d from rfl]
  have hres2 : inlineFirstMatch ((List.replicate 2 d ++ t ++ List.replicate 1 d) ++ [d])
      = some (rule, .emphR (List.replicate 2 d) t (List.replicate 2 d) e) := by
    rw [show (List.replicate 2 d ++ t ++ List.replicate 1 d) ++ [d]
        = List.replicate 2 d ++ t ++ List.replicate 2 d from by simp [List.replicate]]
    exact hres
  rw [insertText_emph (insertTextDecision_eq_inline hd_ne hres2)]
  exact applyEmphTransform_plain2 rule.type

/-- C1 amended: for every emphasis/code rule and every nonempty inner
text of non-delimiter characters (for the code rule also free of line
terminators), typing open delimiter, inner text and close delimiter into
an empty paragraph, one keystroke at a time, yields a single inline run
equal to the inner text carrying exactly the target mark, with no
delimiter characters remaining and the final keystroke consumed -
provided the inner text does not begin with a space when the rule is the
one-character `*` italic rule (whose lone `*` line prefix would fire the
bulleted-list block shortcut on that space, see the counterexample). -/
theorem C1_emphasis_code_typing :
    ∀ r ∈ INLINE_SHORTCUTS, r.type ≠ .link →
    ∀ t : List Char, t ≠ [] → (∀ c ∈ t, nonDelim c = true) →
    (r.pattern = .codeP → ∀ c ∈ t, nonTerm c = true) →
    (r.pattern = .emph '*' 1 → t.head? ≠ some ' ') →
    typeChars emptyParagraph (ruleOpen r.pattern ++ t ++ ruleClose r.pattern)
      = ⟨[], ⟨"paragraph", [.run (setMark r.type noMarks) t]⟩, 0, t.length⟩ := by
  intro r hr hlink t htne ht hterm hsp
  have hno : ∀ x : Char, nonDelim x = false → x ∉ t := fun x hx hm => by
    rw [ht x hm] at hx
    exact Bool.noConfusion hx
  simp only [INLINE_SHORTCUTS, List.mem_cons, List.not_mem_nil, or_false] at hr
  rcases hr with he | he | he | he | he | he <;> subst he
  · exact emphRun2 _ (Or.inl rfl) ht htne
      (inlineFirstMatch_head_some
        (findFirstSome_candidates_zero (emphAt_full (by decide) (hno '*' (by decide)) htne)))
  · exact emphRun2 _ (Or.inr rfl) ht htne
      (inlineFirstMatch_rule2
        (emph_none_of_not_mem (by decide) (not_mem_rep3 ht (by decide) (by decide)))
        (findFirstSome_candidates_zero (emphAt_full (by decide) (hno '_' (by decide)) htne)))
  · exact emphRun1 _ (Or.inl rfl) ht (fun _ => hsp rfl)
      (inlineFirstMatch_rule3
        (emph2_none_single ht htne (by decide))
        (emph_none_of_not_mem (by decide) (not_mem_rep3 ht (by decide) (by decide)))
        (findFirstSome_candidates_zero (emphAt_full (by decide) (hno '*' (by decide)) htne)))
  · exact emphRun1 _ (Or.inr (Or.inl rfl)) ht (fun hcon => absurd hcon (by decide))
      (inlineFirstMatch_rule4
        (emph_none_of_not_mem (by decide) (not_mem_rep3 ht (by decide) (by decide)))
        (emph2_none_single ht htne (by decide))
        (emph_none_of_not_mem (by decide) (not_mem_rep3 ht (by decide) (by decide)))
        (findFirstSome_candidates_zero (emphAt_full (by decide) (hno '_' (by decide)) htne)))
  · exact emphRun1 _ (Or.inr (Or.inr rfl)) ht (fun hcon => absurd hcon (by decide))
      (inlineFirstMatch_rule5
        (emph_none_of_not_mem (by decide) (not_mem_rep3 ht (by decide) (by decide)))
        (emph_none_of_not_mem (by decide) (not_mem_rep3 ht (by decide) (by decide)))
        (emph_none_of_not_mem (by decide) (not_mem_rep3 ht (by decide) (by decide)))
        (emph_none_of_not_mem (by decide) (not_mem_rep3 ht (by decide) (by decide)))
        (findFirstSome_candidates_zero (codeAt_full (hno '`' (by decide)) htne (hterm rfl))))
  · exact absurd rfl hlink

/-- Witness for the amended C1 at the bold rule with inner `hi`. -/
theorem C1_witness :
    typeChars emptyParagraph
        (ruleOpen (InlinePat.emph '*' 2) ++ ['h', 'i'] ++ ruleClose (InlinePat.emph '*' 2))
      = ⟨[], ⟨"paragraph", [.run (setMark InlineKind.bold noMarks) ['h', 'i']]⟩, 0, 2⟩ := by
  have h := C1_emphasis_code_typing ⟨.emph '*' 2, .bold⟩ (by decide) (by decide)
    ['h', 'i'] (by decide) (by decide) (fun hcon => by exact absurd hcon (by decide))
    (fun hcon => by exact absurd hcon (by decide))
  simpa using h

/-- While a link shortcut is being typed, the committed prefix contains
no emphasis delimiter and no close paren, so no inline rule matches. -/
lemma linkPhase_none {s : List Char}
    (hstar : '*' ∉ s) (hund : '_' ∉ s) (htick : '`' ∉ s) (hclose : ')' ∉ s) :
    inlineFirstMatch s = none :=
  inlineFirstMatch_eq_none
    (emph_none_of_not_mem (by decide) hstar)
    (emph_none_of_not_mem (by decide) hund)
    (emph_none_of_not_mem (by decide) hstar)
    (emph_none_of_not_mem (by decide) hund)
    (code_none_of_not_mem htick)
    (link_none_of_not_mem_close hclose)

lemma inlineFirstMatch_rule6 {s : List Char} {res : MatchRes}
    (h1 : inlinePatMatch (.emph '*' 2) s = none)
    (h2 : inlinePatMatch (.emph '_' 2) s = none)
    (h3 : inlinePatMatch (.emph '*' 1) s = none)
    (h4 : inlinePatMatch (.emph '_' 1) s = none)
    (h5 : inlinePatMatch .codeP s = none)
    (h6 : inlinePatMatch .linkP s = some res) :
    inlineFirstMatch s = some (⟨.linkP, .link⟩, res) := by
  simp only [inlineFirstMatch, INLINE_SHORTCUTS, firstRuleMatch, h1, h2, h3, h4, h5, h6]

lemma insertText_link {s : List Char} {c : Char} {rule : InlineRule}
    {sm lt mm lu em : List Char} {e : Nat}
    (hdec : insertTextDecision (plainState s) c
      = .inlineTransform rule (.linkR sm lt mm lu em e)) :
    insertText (plainState s) c = applyLinkTransform (plainState s) sm lt mm lu em := by
  unfold insertText
  rw [hdec]

lemma applyLinkTransform_plain {t1 t2 : List Char} :
    applyLinkTransform (plainState (['['] ++ t1 ++ [']', '('] ++ t2))
      ['['] t1 [']', '('] t2 [')']
      = ⟨[], ⟨"paragraph", [.link t2 t1 noMarks, .run noMarks []]⟩, 1, 0⟩ := by
  rw [show ['['] ++ t1 ++ [']', '('] ++ t2 = '[' :: (t1 ++ ']' :: '(' :: t2) from by simp]
  simp [applyLinkTransform, plainState, caretLeafContent, caretLeafMarks, inlText,
    deleteText, List.take_length, List.drop_length]
  rw [show t1.length + (t2.length + 1 + 1) + 1 - (2 + t2.length) = t1.length + 1 from by omega]
  rw [show t1.length + 1 - 1 - t1.length = 0 from by omega,
    show t1.length + 1 - t1.length - 1 = 0 from by omega,
    show t1.length + 1 - t1.length = 1 from by omega,
    show t1.length + 1 - 1 = t1.length from by omega]
  simp [List.take_length]

lemma nonDelim_spec {x : Char} (h : nonDelim x = true) :
    x ≠ '*' ∧ x ≠ '_' ∧ x ≠ '`' ∧ x ≠ '[' ∧ x ≠ ']' ∧ x ≠ '(' ∧ x ≠ ')' := by
  refine ⟨?_, ?_, ?_, ?_, ?_, ?_, ?_⟩ <;> intro he <;> rw [he] at h <;>
    exact absurd h (by decide)

lemma getElem?_append_right2 {α : Type} {u v : List α} {n m : Nat}
    (h : n = u.length + m) : (u ++ v)[n]? = v[m]? := by
  rw [List.getElem?_append, if_neg (by omega), show n - u.length = m from by omega]

lemma linkS_len {t1 t2 : List Char} :
    (['['] ++ t1 ++ [']', '('] ++ t2 ++ [')']).length = t1.length + t2.length + 4 := by
  simp only [List.length_append, List.length_cons, List.length_nil]
  omega

lemma linkS_drop1 {t1 t2 : List Char} :
    (['['] ++ t1 ++ [']', '('] ++ t2 ++ [')']).drop (0 + 1)
      = t1 ++ [']', '('] ++ t2 ++ [')'] := rfl

lemma linkS_dropA {t1 t2 : List Char} :
    (['['] ++ t1 ++ [']', '('] ++ t2 ++ [')']).drop (t1.length + 1 + 2)
      = t2 ++ [')'] := by
  rw [show ['['] ++ t1 ++ [']', '('] ++ t2 ++ [')']
      = (['['] ++ t1 ++ [']', '(']) ++ (t2 ++ [')']) from by simp,
    show t1.length + 1 + 2 = (['['] ++ t1 ++ [']', '(']).length from by
      simp only [List.length_append, List.length_cons, List.length_nil]; omega]
  exact List.drop_left _ _

lemma linkS_rb {t1 t2 : List Char} :
    (['['] ++ t1 ++ [']', '('] ++ t2 ++ [')'])[t1.length + 1]? = some ']' := by
  rw [show ['['] ++ t1 ++ [']', '('] ++ t2 ++ [')']
      = ['['] ++ (t1 ++ ([']', '('] ++ (t2 ++ [')']))) from by simp,
    getElem?_append_right2 (u := (['['] : List Char)) (m := t1.length)
      (show t1.length + 1 = (['['] : List Char).length + t1.length from by
        simp only [List.length_cons, List.length_nil]; omega),
    getElem?_append_right2 (u := t1) (m := 0)
      (show t1.length = t1.length + 0 from by omega),
    getElem?_append_left (show (0 : Nat) < ([']', '('] : List Char).length from by decide)]
  rfl

lemma linkS_lp {t1 t2 : List Char} :
    (['['] ++ t1 ++ [']', '('] ++ t2 ++ [')'])[t1.length + 1 + 1]? = some '(' := by
  rw [show ['['] ++ t1 ++ [']', '('] ++ t2 ++ [')']
      = ['['] ++ (t1 ++ ([']', '('] ++ (t2 ++ [')']))) from by simp,
    getElem?_append_right2 (u := (['['] : List Char)) (m := t1.length + 1)
      (show t1.length + 1 + 1 = (['['] : List Char).length + (t1.length + 1) from by
        simp only [List.length_cons, List.length_nil]; omega),
    getElem?_append_right2 (u := t1) (m := 1)
      (show t1.length + 1 = t1.length + 1 from rfl),
    getElem?_append_left (show (1 : Nat) < ([']', '('] : List Char).length from by decide)]
  rfl

lemma linkS_close {t1 t2 : List Char} :
    (['['] ++ t1 ++ [']', '('] ++ t2 ++ [')'])[t1.length + t2.length + 3]? = some ')' := by
  rw [show ['['] ++ t1 ++ [']', '('] ++ t2 ++ [')']
      = ['['] ++ (t1 ++ ([']', '('] ++ (t2 ++ [')']))) from by simp,
    getElem?_append_right2 (u := (['['] : List Char)) (m := t1.length + t2.length + 2)
      (show t1.length + t2.length + 3
          = (['['] : List Char).length + (t1.length + t2.length + 2) from by
        simp only [List.length_cons, List.length_nil]; omega),
    getElem?_append_right2 (u := t1) (m := t2.length + 2)
      (show t1.length + t2.length + 2 = t1.length + (t2.length + 2) from by omega),
    getElem?_append_right2 (u := ([']', '('] : List Char)) (m := t2.length)
      (show t2.length + 2 = ([']', '('] : List Char).length + t2.length from by
        simp only [List.length_cons, List.length_nil]; omega),
    getElem?_append_right2 (u := t2) (m := 0)
      (show t2.length = t2.length + 0 from by omega)]
  rfl

lemma linkS_past {t1 t2 : List Char} :
    (['['] ++ t1 ++ [']', '('] ++ t2 ++ [')'])[t1.length + t2.length + 4]? = none :=
  List.getElem?_eq_none (le_of_eq linkS_len)

/-- Position-by-position contents of a fully typed link string. -/
lemma linkS_fact {t1 t2 : List Char} {i : Nat} {x : Char}
    (h : (['['] ++ t1 ++ [']', '('] ++ t2 ++ [')'])[i]? = some x) :
    (i = 0 ∧ x = '[') ∨ (1 ≤ i ∧ i < 1 + t1.length ∧ x ∈ t1) ∨
    (i = 1 + t1.length ∧ x = ']') ∨ (i = 2 + t1.length ∧ x = '(') ∨
    (3 + t1.length ≤ i ∧ i < 3 + t1.length + t2.length ∧ x ∈ t2) ∨
    (i = 3 + t1.length + t2.length ∧ x = ')') := by
  have hlB : (['['] ++ t1 ++ [']', '('] ++ t2).length = 3 + t1.length + t2.length := by
    simp only [List.length_append, List.length_cons, List.length_nil]; omega
  have hlC : (['['] ++ t1 ++ [']', '(']).length = 3 + t1.length := by
    simp only [List.length_append, List.length_cons, List.length_nil]; omega
  have hlD : (['['] ++ t1).length = 1 + t1.length := by
    simp only [List.length_append, List.length_cons, List.length_nil]
  by_cases hA : i < 3 + t1.length + t2.length
  · rw [getElem?_append_left (by rw [hlB]; omega)] at h
    by_cases hBc : i < 3 + t1.length
    · rw [getElem?_append_left (by rw [hlC]; omega)] at h
      by_cases hCc : i < 1 + t1.length
      · rw [getElem?_append_left (by rw [hlD]; omega)] at h
        by_cases hD : i < 1
        · rw [getElem?_append_left (show i < (['['] : List Char).length from by
              simp only [List.length_cons, List.length_nil]; omega)] at h
          have hi0 : i = 0 := by omega
          subst hi0
          simp at h
          exact Or.inl ⟨rfl, h.symm⟩
        · rw [List.getElem?_append, if_neg (show ¬ i < (['['] : List Char).length from by
              simp only [List.length_cons, List.length_nil]; omega)] at h
          exact Or.inr (Or.inl ⟨by omega, by omega, List.getElem?_mem h⟩)
      · rw [List.getElem?_append, if_neg (by rw [hlD]; omega), hlD] at h
        by_cases hE : i - (1 + t1.length) = 0
        · rw [hE] at h
          simp at h
          exact Or.inr (Or.inr (Or.inl ⟨by omega, h.symm⟩))
        · have hE1 : i - (1 + t1.length) = 1 := by omega
          rw [hE1] at h
          simp at h
          exact Or.inr (Or.inr (Or.inr (Or.inl ⟨by omega, h.symm⟩)))
    · rw [List.getElem?_append, if_neg (by rw [hlC]; omega), hlC] at h
      exact Or.inr (Or.inr (Or.inr (Or.inr (Or.inl
        ⟨by omega, by omega, List.getElem?_mem h⟩))))
  · rw [List.getElem?_append, if_neg (by rw [hlB]; omega), hlB] at h
    by_cases hE : i - (3 + t1.length + t2.length) = 0
    · rw [hE] at h
      simp at h
      exact Or.inr (Or.inr (Or.inr (Or.inr (Or.inr ⟨by omega, h.symm⟩))))
    · have hn : ([')'] : List Char)[i - (3 + t1.length + t2.length)]? = none :=
        List.getElem?_eq_none (by simp only [List.length_cons, List.length_nil]; omega)
      rw [hn] at h
      exact Option.noConfusion h

/-- At the `](` marker position `t1.length + 1`, the url part of the link
pattern matches greedily up to the final close paren. -/
lemma linkUrlAt_full (t1 : List Char) {t2 : List Char} (h2ne : t2 ≠ [])
    (ht2 : ∀ c ∈ t2, nonDelim c = true ∧ nonTerm c = true) :
    linkUrlAt (['['] ++ t1 ++ [']', '('] ++ t2 ++ [')']) 0 (t1.length + 1)
      = some (.linkR ['['] t1 [']', '('] t2 [')'] (t1.length + t2.length + 4)) := by
  have h2l : 1 ≤ t2.length := Nat.pos_of_ne_zero (fun h0 => h2ne (List.length_eq_zero.mp h0))
  have htw2 : ((t2 ++ [')']).takeWhile nonTerm) = t2 ++ [')'] := by
    rw [List.takeWhile_eq_self_iff]
    intro x hx
    rcases List.mem_append.mp hx with hx | hx
    · exact (ht2 x hx).2
    · have hxe : x = ')' := by simpa using hx
      subst hxe
      decide
  have hfindb : (revRange (t1.length + 1 + 3)
      (t1.length + 1 + 2 + (((['['] ++ t1 ++ [']', '('] ++ t2 ++ [')']).drop
        (t1.length + 1 + 2)).takeWhile nonTerm).length)).find?
      (fun b => (['['] ++ t1 ++ [']', '('] ++ t2 ++ [')'])[b]? = some ')')
      = some (t1.length + t2.length + 3) := by
    rw [linkS_dropA, htw2,
      show t1.length + 1 + 2 + (t2 ++ [')']).length = t1.length + t2.length + 4 from by
        simp only [List.length_append, List.length_cons, List.length_nil]; omega]
    apply find?_revRange_eq_of (by omega) (by omega) (t1.length + t2.length + 4) (by omega)
      (by simp only [linkS_close]; rfl)
    intro r hr1 hr2
    have hre : r = t1.length + t2.length + 4 := by omega
    subst hre
    show decide ((['['] ++ t1 ++ [']', '('] ++ t2 ++ [')'])[t1.length + t2.length + 4]?
      = some ')') = false
    rw [linkS_past]
    rfl
  unfold linkUrlAt
  simp only [hfindb]
  rw [linkS_drop1, linkS_dropA,
    show t1.length + 1 - (0 + 1) = t1.length from by omega,
    show t1.length + t2.length + 3 - (t1.length + 1 + 2) = t2.length from by omega,
    show t1 ++ [']', '('] ++ t2 ++ [')'] = t1 ++ ([']', '('] ++ t2 ++ [')']) from by simp,
    List.take_left, List.take_left,
    show t1.length + t2.length + 3 + 1 = t1.length + t2.length + 4 from by omega]

/-- The link pattern fully matches a typed `[text](url)` string at the
opening bracket, with the greedy backtracking landing on the unique `](`
marker and the final close paren. -/
lemma linkAt_full {t1 t2 : List Char} (h1ne : t1 ≠ []) (h2ne : t2 ≠ [])
    (ht1 : ∀ c ∈ t1, nonDelim c = true ∧ nonTerm c = true)
    (ht2 : ∀ c ∈ t2, nonDelim c = true ∧ nonTerm c = true) :
    linkAt (['['] ++ t1 ++ [']', '('] ++ t2 ++ [')']) 0
      = some (.linkR ['['] t1 [']', '('] t2 [')'] (t1.length + t2.length + 4)) := by
  have h1l : 1 ≤ t1.length := Nat.pos_of_ne_zero (fun h0 => h1ne (List.length_eq_zero.mp h0))
  have h2l : 1 ≤ t2.length := Nat.pos_of_ne_zero (fun h0 => h2ne (List.length_eq_zero.mp h0))
  have hurl := linkUrlAt_full t1 h2ne ht2
  have hS0 : (['['] ++ t1 ++ [']', '('] ++ t2 ++ [')'])[0]? = some '[' := by
    rw [show ['['] ++ t1 ++ [']', '('] ++ t2 ++ [')']
        = ['['] ++ (t1 ++ ([']', '('] ++ (t2 ++ [')']))) from by simp,
      getElem?_append_left (show (0 : Nat) < (['['] : List Char).length from by decide)]
    rfl
  have htw1 : ((t1 ++ [']', '('] ++ t2 ++ [')']).takeWhile nonTerm)
      = t1 ++ [']', '('] ++ t2 ++ [')'] := by
    rw [List.takeWhile_eq_self_iff]
    intro x hx
    rcases List.mem_append.mp hx with hx | hx
    · rcases List.mem_append.mp hx with hx | hx
      · rcases List.mem_append.mp hx with hx | hx
        · exact (ht1 x hx).2
        · rcases List.mem_cons.mp hx with hx | hx
          · subst hx
            decide
          · have hxe : x = '(' := by simpa using hx
            subst hxe
            decide
      · exact (ht2 x hx).2
    · have hxe : x = ')' := by simpa using hx
      subst hxe
      decide
  have hfinda : (revRange (0 + 2)
      (0 + 1 + (((['['] ++ t1 ++ [']', '('] ++ t2 ++ [')']).drop (0 + 1)).takeWhile
        nonTerm).length)).find?
      (fun a => (['['] ++ t1 ++ [']', '('] ++ t2 ++ [')'])[a]? = some ']'
        && (['['] ++ t1 ++ [']', '('] ++ t2 ++ [')'])[a + 1]? = some '('
        && (linkUrlAt (['['] ++ t1 ++ [']', '('] ++ t2 ++ [')']) 0 a).isSome)
      = some (t1.length + 1) := by
    rw [linkS_drop1, htw1,
      show 0 + 1 + (t1 ++ [']', '('] ++ t2 ++ [')']).length
          = t1.length + t2.length + 4 from by
        simp only [List.length_append, List.length_cons, List.length_nil]; omega]
    apply find?_revRange_eq_of (by omega) (by omega) (t1.length + t2.length + 4) (by omega)
      (by simp only [linkS_rb, linkS_lp, hurl]; rfl)
    intro r hr1 hr2
    cases hxr : (['['] ++ t1 ++ [']', '('] ++ t2 ++ [')'])[r]? with
    | none => simp [hxr]
    | some x =>
        rcases linkS_fact hxr with ⟨hi, _⟩ | ⟨_, hi, _⟩ | ⟨hi, _⟩ | ⟨_, hx⟩ |
          ⟨_, _, hmem⟩ | ⟨_, hx⟩
        · omega
        · omega
        · omega
        · subst hx
          simp [hxr]
        · have hxne : x ≠ ']' := by
            intro he
            have hnd := (ht2 x hmem).1
            rw [he] at hnd
            exact absurd hnd (by decide)
          simp [hxr, hxne]
        · subst hx
          simp [hxr]
  unfold linkAt
  rw [if_pos hS0]
  simp only [hfinda]
  exact hurl

lemma linkCommitted_chars {t1 t2 : List Char}
    (ht1 : ∀ c ∈ t1, nonDelim c = true ∧ nonTerm c = true)
    (ht2 : ∀ c ∈ t2, nonDelim c = true ∧ nonTerm c = true) :
    ∀ x ∈ (['['] ++ t1 ++ [']', '('] ++ t2),
      x ≠ '*' ∧ x ≠ '_' ∧ x ≠ '`' ∧ x ≠ ')' := by
  intro x hx
  rcases List.mem_append.mp hx with hx | hx
  · rcases List.mem_append.mp hx with hx | hx
    · rcases List.mem_append.mp hx with hx | hx
      · have hxe : x = '[' := by simpa using hx
        subst hxe
        exact ⟨by decide, by decide, by decide, by decide⟩
      · have hnd := nonDelim_spec (ht1 x hx).1
        exact ⟨hnd.1, hnd.2.1, hnd.2.2.1, hnd.2.2.2.2.2.2⟩
    · rcases List.mem_cons.mp hx with hx | hx
      · subst hx
        exact ⟨by decide, by decide, by decide, by decide⟩
      · have hxe : x = '(' := by simpa using hx
        subst hxe
        exact ⟨by decide, by decide, by decide, by decide⟩
  · have hnd := nonDelim_spec (ht2 x hx).1
    exact ⟨hnd.1, hnd.2.1, hnd.2.2.1, hnd.2.2.2.2.2.2⟩

lemma linkFull_chars {t1 t2 : List Char}
    (ht1 : ∀ c ∈ t1, nonDelim c = true ∧ nonTerm c = true)
    (ht2 : ∀ c ∈ t2, nonDelim c = true ∧ nonTerm c = true) :
    ∀ x ∈ (['['] ++ t1 ++ [']', '('] ++ t2 ++ [')']),
      x ≠ '*' ∧ x ≠ '_' ∧ x ≠ '`' := by
  intro x hx
  rcases List.mem_append.mp hx with hx | hx
  · have h := linkCommitted_chars ht1 ht2 x hx
    exact ⟨h.1, h.2.1, h.2.2.1⟩
  · have hxe : x = ')' := by simpa using hx
    subst hxe
    exact ⟨by decide, by decide, by decide⟩

/-- Typing the committed part `[text](url` of a link shortcut stays a
plain paragraph: no block rule fires on a line starting with `[`, and no
inline rule fires while the close paren is still missing. -/
lemma linkTypeCommitted {t1 t2 : List Char}
    (ht1 : ∀ c ∈ t1, nonDelim c = true ∧ nonTerm c = true)
    (ht2 : ∀ c ∈ t2, nonDelim c = true ∧ nonTerm c = true) :
    typeChars (plainState []) (['['] ++ t1 ++ [']', '('] ++ t2)
      = plainState (['['] ++ t1 ++ [']', '('] ++ t2) := by
  apply typeChars_plain
  intro v c w hvw
  simp only [List.nil_append]
  have hmemc : ∀ x, x ∈ v ++ [c] → x ∈ (['['] ++ t1 ++ [']', '('] ++ t2) := by
    intro x hx
    rw [hvw]
    rcases List.mem_append.mp hx with h | h
    · exact List.mem_append_left _ h
    · have hxe : x = c := by simpa using h
      subst hxe
      exact List.mem_append_right _ (List.mem_cons_self _ _)
  apply insertTextDecision_eq_default
  · intro hc
    subst hc
    cases v with
    | nil =>
        have h0 : '[' :: (t1 ++ [']', '('] ++ t2) = ' ' :: w := hvw
        injection h0 with h1 _
        exact absurd h1 (by decide)
    | cons a v' =>
        have h0 : '[' :: (t1 ++ [']', '('] ++ t2) = a :: (v' ++ ' ' :: w) := hvw
        injection h0 with h1 _
        subst h1
        exact blockFirstMatch_none_of_head rfl
          (by intro he; injection he with he1; exact absurd he1 (by decide))
          (by decide) (by decide) (by decide) (by decide) (by decide)
  · refine linkPhase_none ?_ ?_ ?_ ?_
    · intro hm
      exact (linkCommitted_chars ht1 ht2 '*' (hmemc '*' hm)).1 rfl
    · intro hm
      exact (linkCommitted_chars ht1 ht2 '_' (hmemc '_' hm)).2.1 rfl
    · intro hm
      exact (linkCommitted_chars ht1 ht2 '`' (hmemc '`' hm)).2.2.1 rfl
    · intro hm
      exact (linkCommitted_chars ht1 ht2 ')' (hmemc ')' hm)).2.2.2 rfl

/-- C7 (amended): in an empty paragraph with a collapsed selection,
typing `[`, a nonempty link text free of delimiter and line-terminator
characters, `](`, a nonempty url likewise free of them, and the final
`)` one keystroke at a time produces a link node carrying the url, whose
child text is exactly the link text, followed by an empty text leaf; the
marker characters are all consumed (the final `)` never being committed),
so no delimiter characters remain in the block's text. -/
theorem C7_link_typing (t1 t2 : List Char)
    (h1ne : t1 ≠ []) (h2ne : t2 ≠ [])
    (ht1 : ∀ c ∈ t1, nonDelim c = true ∧ nonTerm c = true)
    (ht2 : ∀ c ∈ t2, nonDelim c = true ∧ nonTerm c = true) :
    typeChars emptyParagraph (['['] ++ t1 ++ [']', '('] ++ t2 ++ [')'])
      = ⟨[], ⟨"paragraph", [.link t2 t1 noMarks, .run noMarks []]⟩, 1, 0⟩ ∧
    ∀ c ∈ docText (typeChars emptyParagraph (['['] ++ t1 ++ [']', '('] ++ t2 ++ [')'])),
      nonDelim c = true := by
  have hmatch : inlineFirstMatch (['['] ++ t1 ++ [']', '('] ++ t2 ++ [')'])
      = some (⟨.linkP, .link⟩,
        .linkR ['['] t1 [']', '('] t2 [')'] (t1.length + t2.length + 4)) := by
    have hSne := linkFull_chars ht1 ht2
    apply inlineFirstMatch_rule6
    · exact emph_none_of_not_mem (by decide) (fun hm => (hSne '*' hm).1 rfl)
    · exact emph_none_of_not_mem (by decide) (fun hm => (hSne '_' hm).2.1 rfl)
    · exact emph_none_of_not_mem (by decide) (fun hm => (hSne '*' hm).1 rfl)
    · exact emph_none_of_not_mem (by decide) (fun hm => (hSne '_' hm).2.1 rfl)
    · exact code_none_of_not_mem (fun hm => (hSne '`' hm).2.2 rfl)
    · exact findFirstSome_candidates_zero (linkAt_full h1ne h2ne ht1 ht2)
  have hdec : insertTextDecision (plainState (['['] ++ t1 ++ [']', '('] ++ t2)) ')'
      = .inlineTransform ⟨.linkP, .link⟩
        (.linkR ['['] t1 [']', '('] t2 [')'] (t1.length + t2.length + 4)) := by
    apply insertTextDecision_eq_inline (by decide)
    rw [show (['['] ++ t1 ++ [']', '('] ++ t2) ++ [')']
        = ['['] ++ t1 ++ [']', '('] ++ t2 ++ [')'] from by simp]
    exact hmatch
  have htr : applyLinkTransform (plainState (['['] ++ t1 ++ [']', '('] ++ t2))
      ['['] t1 [']', '('] t2 [')']
      = ⟨[], ⟨"paragraph", [.link t2 t1 noMarks, .run noMarks []]⟩, 1, 0⟩ :=
    applyLinkTransform_plain
  have hfirst : typeChars emptyParagraph (['['] ++ t1 ++ [']', '('] ++ t2 ++ [')'])
      = ⟨[], ⟨"paragraph", [.link t2 t1 noMarks, .run noMarks []]⟩, 1, 0⟩ := by
    have hs' : typeChars (plainState []) ((['['] ++ t1 ++ [']', '('] ++ t2) ++ [')'])
        = ⟨[], ⟨"paragraph", [.link t2 t1 noMarks, .run noMarks []]⟩, 1, 0⟩ := by
      rw [typeChars_append, linkTypeCommitted ht1 ht2]
      show insertText (plainState (['['] ++ t1 ++ [']', '('] ++ t2)) ')' = _
      rw [insertText_link hdec]
      exact htr
    rw [show (['['] ++ t1 ++ [']', '('] ++ t2) ++ [')']
        = ['['] ++ t1 ++ [']', '('] ++ t2 ++ [')'] from by simp] at hs'
    exact hs'
  refine ⟨hfirst, ?_⟩
  rw [hfirst]
  intro c hc
  simp only [docText, inlText, List.map_cons, List.map_nil, List.flatten,
    List.append_nil] at hc
  exact (ht1 c hc).1

/-- Witness for C7: typing `[t](u)` produces a link node with url `u`
and text `t`, with no delimiter characters left in the block. -/
theorem C7_witness :
    typeChars emptyParagraph (['['] ++ ['t'] ++ [']', '('] ++ ['u'] ++ [')'])
      = ⟨[], ⟨"paragraph", [.link ['u'] ['t'] noMarks, .run noMarks []]⟩, 1, 0⟩ ∧
    ∀ c ∈ docText (typeChars emptyParagraph
      (['['] ++ ['t'] ++ [']', '('] ++ ['u'] ++ [')'])), nonDelim c = true :=
  C7_link_typing ['t'] ['u'] (by decide) (by decide) (by decide) (by decide)
